import Mathlib

/-!
Verification of the binary-paragraph metadata codec of vcpkg
(src/vcpkg/binaryparagraph.cpp): parsing a field map into a
`BinaryParagraph`, canonicalization, serialization back to text, and the
round-trip sanity check performed by `serialize`.

Strings of the C++ source are modelled as `List Char` (`Str`); machine
integers of the source (`int port_version`) are modelled as `Int`.
Collaborators that are not part of the source fragment (the paragraph
tokenizer, `Strings::strto`, `Strings::split`, `Strings::inplace_trim`,
`Util::sort_unique_erase`, the qualified-dependency-list grammar and the
default-features grammar) are modelled from the specification text; each
such definition carries a doc comment saying so.
-/

/-- Strings of the C++ source, modelled as lists of characters. -/
abbrev Str := List Char

def nlChar : Char := '\n'

def colonChar : Char := ':'

def commaChar : Char := ','

def spaceChar : Char := ' '

def sepColonSpace : Str := (": ".toList)

def commaSpace : Str := (", ".toList)

/-- The `"\n    "` joiner used by `serialize_paragraph` for multi-line
fields (four-space continuation indent). -/
def parJoiner : Str := ("\n    ".toList)

def sameStr : Str := ("same".toList)

def coreStr : Str := ("core".toList)

/-- Modelled from the spec: `Strings::inplace_trim` removes leading and
trailing whitespace from a line (the helper itself is not under src/). -/
def trimStr (s : Str) : Str :=
  ((s.dropWhile Char.isWhitespace).reverse.dropWhile Char.isWhitespace).reverse

/-- Split a character list at every occurrence of `c`; always returns at
least one (possibly empty) piece. -/
def splitOnChar (c : Char) : Str → List Str
  | [] => [[]]
  | x :: xs =>
    match splitOnChar c xs with
    | [] => [[]]
    | y :: ys => if x = c then [] :: y :: ys else (x :: y) :: ys

/-- Modelled from the spec: `Strings::split` of a multi-line field value on
line breaks (the helper itself is not under src/). -/
def Strings.split (s : Str) (c : Char) : List Str := splitOnChar c s

/-- Decimal digit character for `n < 10`. -/
def digitChar (n : Nat) : Char :=
  if n = 0 then '0'
  else if n = 1 then '1'
  else if n = 2 then '2'
  else if n = 3 then '3'
  else if n = 4 then '4'
  else if n = 5 then '5'
  else if n = 6 then '6'
  else if n = 7 then '7'
  else if n = 8 then '8'
  else '9'

/-- Fuelled decimal rendering loop; the fuel always suffices when it
exceeds the number being rendered. -/
def natToStrAux : Nat → Nat → Str
  | 0, _ => []
  | fuel + 1, n =>
    if n < 10 then [digitChar n]
    else natToStrAux fuel (n / 10) ++ [digitChar (n % 10)]

/-- Decimal rendering of a natural number, most significant digit first. -/
def natToStr (n : Nat) : Str := natToStrAux (n + 1) n

/-- Modelled from the spec: the decimal rendering used by
`fmt::format_to` for the `Port-Version: <n>` line. -/
def intToStr (i : Int) : Str :=
  if i < 0 then '-' :: natToStr (-i).toNat else natToStr i.toNat

/-- Numeric value of a digit character. -/
def charVal (c : Char) : Nat := c.toNat - 48

/-- Modelled from the spec: `Strings::strto<int>` as used by the
`Port-Version` read (the helper itself is not under src/).  Per spec §4.1
step 2 the accepted values are exactly the valid non-negative integers;
anything else (including a leading minus sign) fails to parse. -/
def Strings.strto (s : Str) : Option Int :=
  if s ≠ [] && s.all Char.isDigit then
    some (Int.ofNat (s.foldl (fun a c => a * 10 + charVal c) 0))
  else none

/-- Characters admitted in package names, triplet names and feature names
by the modelled external grammars. -/
def identChar (c : Char) : Bool := c.isLower || c.isDigit || c = '-'

/-- A well-formed name token of the modelled external grammars. -/
def validIdent (s : Str) : Bool := !s.isEmpty && s.all identChar

/-- PackageSpec: (package name, triplet) pair identifying one buildable
unit (external value type, modelled from the spec's data model). -/
structure PackageSpec where
  name : Str
  triplet : Str
deriving DecidableEq, Repr

/-- Total order on PackageSpec: compare by name, then triplet (spec §3). -/
instance : LinearOrder PackageSpec :=
  LinearOrder.lift' (fun p => toLex (p.name, p.triplet)) (by
    intro a b h
    cases a; cases b
    simpa [PackageSpec.mk.injEq, Prod.ext_iff] using congrArg ofLex h)

/-- Modelled from the spec: `PackageSpec::to_string` renders
`name:triplet` (spec §6, `dep = name | name:triplet`). -/
def PackageSpec.render (p : PackageSpec) : Str := p.name ++ [colonChar] ++ p.triplet

/-- Modelled from the spec: `Triplet::from_canonical_name`.  The spec
treats triplet canonicality as an external constructor precondition, so
the canonical token itself is the model and the map is the identity. -/
def Triplet.from_canonical_name (s : Str) : Str := s

/-- Version text plus port-version disambiguator (`vcpkg::Version`). -/
structure VersionT where
  text : Str
  port_version : Int
deriving DecidableEq, Repr

/-- The fields of a `SourceParagraph` consumed by the core-build
constructor path (name, version, description, maintainers). -/
structure SourceParagraph where
  name : Str
  version : VersionT
  description : List Str
  maintainers : List Str
deriving DecidableEq, Repr

/-- The fields of a `FeatureParagraph` consumed by the feature
constructor path (feature name, description). -/
structure FeatureParagraph where
  name : Str
  description : List Str
deriving DecidableEq, Repr

/-- The central entity of src/vcpkg/binaryparagraph.cpp.  Structural
equality of this structure coincides with the field-by-field
`operator==` of the source (lines 173-185). -/
structure BinaryParagraph where
  spec : PackageSpec
  version : VersionT
  description : List Str
  maintainers : List Str
  feature : Str
  default_features : List Str
  dependencies : List PackageSpec
  abi : Str
deriving DecidableEq, Repr

/-- `BinaryParagraph::is_feature`: the record describes a named feature
iff the feature name is non-empty. -/
def BinaryParagraph.is_feature (p : BinaryParagraph) : Bool := !p.feature.isEmpty

/-- Modelled from the spec: one entry of the qualified-dependency-list
grammar, restricted to the parts the binary paragraph keeps (name and
optional explicit triplet; feature lists and platform qualifiers are
discarded by the construction path, src line 68). -/
def parseQualifiedSpecifier (t : Str) : Option (Str × Option Str) :=
  match splitOnChar colonChar t with
  | [n] => if validIdent n then some (n, none) else none
  | [n, tr] => if validIdent n && validIdent tr then some (n, some tr) else none
  | _ => none

/-- Modelled from the spec: `parse_qualified_specifier_list` (external
collaborator, spec §6): a comma-separated list of `name` or
`name:triplet` entries; empty input yields the empty list; any malformed
entry is a parse error. -/
def parseQualifiedSpecifierList (s : Str) : Option (List (Str × Option Str)) :=
  if trimStr s = [] then some []
  else (splitOnChar commaChar s).mapM (fun item => parseQualifiedSpecifier (trimStr item))

/-- Modelled from the spec: `parse_default_features_list` (external
collaborator, spec §6): a comma-separated list of feature names. -/
def parseDefaultFeaturesList (s : Str) : Option (List Str) :=
  if trimStr s = [] then some []
  else (splitOnChar commaChar s).mapM
    (fun item => let t := trimStr item; if validIdent t then some t else none)

/-- A positioned error accumulated by the `ParagraphParser` model
(positions are abstracted away; the error kind and the field it concerns
are kept). -/
inductive ParseError where
  | missingField (name : Str)
  | portVersionNotInteger
deriving DecidableEq, Repr

/-- Lookup of the first field of the given name in the ordered field map
produced by the tokenizer. -/
def getField : List (Str × Str) → Str → Option Str
  | [], _ => none
  | (n, v) :: rest, name => if n = name then some v else getField rest name

/-- Modelled from the spec: `ParagraphParser::optional_field` returns the
field's value, or the empty string when the field is absent (spec §4.1;
paragraphparser.h is not under src/). -/
def optionalField (fields : List (Str × Str)) (name : Str) : Str :=
  (getField fields name).getD []

/-- Modelled from the spec: `ParagraphParser::required_field` returns the
field's value, appending a positioned missing-field error to the
accumulated error list when the field is absent (spec §4.1). -/
def requiredField (fields : List (Str × Str)) (name : Str) (errs : List ParseError) :
    Str × List ParseError :=
  match getField fields name with
  | some v => (v, errs)
  | none => ([], errs ++ [ParseError.missingField name])

def fieldPackage : Str := ("Package".toList)

def fieldVersion : Str := ("Version".toList)

def fieldPortVersion : Str := ("Port-Version".toList)

def fieldArchitecture : Str := ("Architecture".toList)

def fieldMultiArch : Str := ("Multi-Arch".toList)

def fieldAbi : Str := ("Abi".toList)

def fieldFeature : Str := ("Feature".toList)

def fieldDescription : Str := ("Description".toList)

def fieldMaintainer : Str := ("Maintainer".toList)

def fieldDepends : Str := ("Depends".toList)

def fieldDefaultFeatures : Str := ("Default-Features".toList)

def fieldType : Str := ("Type".toList)

/-- Outcome of the parsing-path constructor
`BinaryParagraph::BinaryParagraph(StringView, Paragraph&&)`
(src lines 32-95).  `ok` is normal completion; `accumulatedErrors` is the
report-all-then-exit path of src lines 83-89; `fatalDependsParse` and
`fatalDefaultFeaturesParse` are the immediate `value_or_exit` aborts of
src lines 66 and 78; `fatalMultiArch` is the `msg_check_exit` of src
line 92. -/
inductive ConstructResult where
  | ok (r : BinaryParagraph)
  | accumulatedErrors (spec : PackageSpec) (errors : List ParseError)
  | fatalDependsParse
  | fatalDefaultFeaturesParse
  | fatalMultiArch (value : Str)
deriving DecidableEq, Repr

/-- Adjacent-duplicate removal, the `erase(unique(...))` half of
`Util::sort_unique_erase`. -/
def dedupAdjacent : List PackageSpec → List PackageSpec
  | [] => []
  | [a] => [a]
  | a :: b :: rest =>
    if a = b then dedupAdjacent (b :: rest) else a :: dedupAdjacent (b :: rest)

/-- Modelled from the spec: `Util::sort_unique_erase` sorts by PackageSpec
order and removes duplicates (spec §4.2; util.h is not under src/). -/
def sortUniqueErase (l : List PackageSpec) : List PackageSpec :=
  dedupAdjacent (List.insertionSort (· ≤ ·) l)

/-- True when every line of the list is empty — the `all_empty` lambda of
`BinaryParagraph::canonicalize` (src lines 131-133). -/
def allEmpty (xs : List Str) : Bool := xs.all List.isEmpty

/-- `BinaryParagraph::canonicalize` (src lines 129-154): deduplicate and
sort the dependencies, trim every maintainer and description line, and
clear either list entirely when all of its lines are blank. -/
def BinaryParagraph.canonicalize (p : BinaryParagraph) : BinaryParagraph :=
  let ms := p.maintainers.map trimStr
  let ds := p.description.map trimStr
  { p with
    dependencies := sortUniqueErase p.dependencies
    maintainers := if allEmpty ms then [] else ms
    description := if allEmpty ds then [] else ds }

/-- The parsing-path constructor
`BinaryParagraph::BinaryParagraph(StringView, Paragraph&&)`
(src lines 32-95), as a total function from the tokenized field map to a
`ConstructResult`.  Field reads, error accumulation and the order of the
fatal checks follow the source line by line. -/
def construct (fields : List (Str × Str)) : ConstructResult :=
  let e0 : List ParseError := []
  let pr1 := requiredField fields fieldPackage e0
  let pr2 := requiredField fields fieldArchitecture pr1.2
  let spec : PackageSpec := ⟨pr1.1, Triplet.from_canonical_name pr2.1⟩
  let vtext := optionalField fields fieldVersion
  let pvStr := optionalField fields fieldPortVersion
  let pv3 : Int × List ParseError :=
    if pvStr = [] then (0, pr2.2)
    else
      match Strings.strto pvStr with
      | some v => (v, pr2.2)
      | none => (0, pr2.2 ++ [ParseError.portVersionNotInteger])
  let feature := optionalField fields fieldFeature
  let description := Strings.split (optionalField fields fieldDescription) nlChar
  let maintainers := Strings.split (optionalField fields fieldMaintainer) nlChar
  let abi := optionalField fields fieldAbi
  let pr4 := requiredField fields fieldMultiArch pv3.2
  match parseQualifiedSpecifierList (optionalField fields fieldDepends) with
  | none => ConstructResult.fatalDependsParse
  | some parsedDeps =>
    let dependencies := parsedDeps.map
      (fun d => PackageSpec.mk d.1 (d.2.map Triplet.from_canonical_name |>.getD spec.triplet))
    match (if feature = [] then parseDefaultFeaturesList (optionalField fields fieldDefaultFeatures)
           else some []) with
    | none => ConstructResult.fatalDefaultFeaturesParse
    | some dfs =>
      let _typeField := optionalField fields fieldType
      if pr4.2 ≠ [] then ConstructResult.accumulatedErrors spec pr4.2
      else if pr4.1 ≠ sameStr then ConstructResult.fatalMultiArch pr4.1
      else ConstructResult.ok
        (BinaryParagraph.canonicalize
          ⟨spec, ⟨vtext, pv3.1⟩, description, maintainers, feature, dfs, dependencies, abi⟩)

/-- The core-build constructor
`BinaryParagraph::BinaryParagraph(const SourceParagraph&, ...)`
(src lines 97-112): feature is empty, every other field comes from the
arguments, and the record is canonicalized. -/
def constructFromSource (spgh : SourceParagraph) (default_features : List Str)
    (triplet : Str) (abi_tag : Str) (deps : List PackageSpec) : BinaryParagraph :=
  BinaryParagraph.canonicalize
    ⟨⟨spgh.name, triplet⟩, spgh.version, spgh.description, spgh.maintainers,
      [], default_features, deps, abi_tag⟩

/-- The feature constructor
`BinaryParagraph::BinaryParagraph(const PackageSpec&, const FeatureParagraph&, ...)`
(src lines 114-127): version, maintainers, default features and abi are
default-constructed (empty), and the record is canonicalized. -/
def constructFromFeature (spec : PackageSpec) (fpgh : FeatureParagraph)
    (deps : List PackageSpec) : BinaryParagraph :=
  BinaryParagraph.canonicalize
    ⟨spec, ⟨[], 0⟩, fpgh.description, [], fpgh.name, [], deps, []⟩

/-- `BinaryParagraph::displayname` (src lines 156-164). -/
def BinaryParagraph.displayname (p : BinaryParagraph) : Str :=
  if !p.is_feature || p.feature = coreStr then
    p.spec.name ++ [colonChar] ++ p.spec.triplet
  else
    p.spec.name ++ ['['] ++ p.feature ++ [']', ':'] ++ p.spec.triplet

/-- `serialize_string` (src lines 189-197): append `Name: value\n`,
doing nothing when the value is empty. -/
def serialize_string (name field out : Str) : Str :=
  if field = [] then out else out ++ name ++ sepColonSpace ++ field ++ [nlChar]

/-- `serialize_array` (src lines 198-211): append `Name: v1<j>v2...\n`,
doing nothing when the list is empty. -/
def serialize_array (name : Str) (array : List Str) (out : Str) (joiner : Str) : Str :=
  if array = [] then out
  else out ++ name ++ sepColonSpace ++ List.intercalate joiner array ++ [nlChar]

/-- `serialize_paragraph` (src lines 212-215): `serialize_array` with the
`"\n    "` continuation joiner. -/
def serialize_paragraph (name : Str) (array : List Str) (out : Str) : Str :=
  serialize_array name array out parJoiner

/-- `serialize_deps_list` (src lines 217-229): each dependency renders as
its bare name when its triplet equals the target, else as
`name:triplet`. -/
def serialize_deps_list (deps : List PackageSpec) (target : Str) : Str :=
  List.intercalate commaSpace
    (deps.map (fun pspec => if pspec.triplet = target then pspec.name else pspec.render))

/-- The append phase of `vcpkg::serialize` (src lines 231-262), appending
the record's field lines to `out0` in the fixed source order. -/
def serializeBodyFrom (pgh : BinaryParagraph) (out0 : Str) : Str :=
  let out := serialize_string fieldPackage pgh.spec.name out0
  let out := serialize_string fieldVersion pgh.version.text out
  let out :=
    if pgh.version.port_version ≠ 0 then
      out ++ fieldPortVersion ++ sepColonSpace ++ intToStr pgh.version.port_version ++ [nlChar]
    else out
  let out := if pgh.is_feature then serialize_string fieldFeature pgh.feature out else out
  let out :=
    if pgh.dependencies ≠ [] then
      serialize_string fieldDepends (serialize_deps_list pgh.dependencies pgh.spec.triplet) out
    else out
  let out := serialize_string fieldArchitecture pgh.spec.triplet out
  let out := serialize_string fieldMultiArch sameStr out
  let out := serialize_paragraph fieldMaintainer pgh.maintainers out
  let out := serialize_string fieldAbi pgh.abi out
  let out := serialize_paragraph fieldDescription pgh.description out
  let out := serialize_array fieldDefaultFeatures pgh.default_features out commaSpace
  out

/-- The text appended for a record by `vcpkg::serialize`, starting from an
empty output string. -/
def serializeBody (pgh : BinaryParagraph) : Str := serializeBodyFrom pgh []

/-- A line that continues the previous field's value: it starts with
whitespace (the line-folding convention of the textual-record grammar,
spec §4.3/§6). -/
def isContinuationLine (l : Str) : Bool :=
  match l with
  | [] => false
  | c :: _ => c.isWhitespace

/-- Modelled from the spec: split a `Name: value` line of the
textual-record grammar at the first colon, requiring a nonempty name and
a `": "` separator. -/
def splitFieldLine (line : Str) : Option (Str × Str) :=
  let name := line.takeWhile (fun c => c != colonChar)
  let rest := line.dropWhile (fun c => c != colonChar)
  if name = [] then none
  else
    match rest with
    | c1 :: c2 :: v => if c1 = colonChar && c2 = spaceChar then some (name, v) else none
    | _ => none

/-- Modelled from the spec: the line-folding loop of the single-record
tokenizer.  A whitespace-led line continues the current field's value
(joined back with the line break); any other line must start a new
`Name: value` field; a blank line inside the record is a parse error. -/
def parseFieldsAux (name val : Str) : List Str → Option (List (Str × Str))
  | [] => some [(name, val)]
  | line :: rest =>
    if line = [] then none
    else if isContinuationLine line then parseFieldsAux name (val ++ nlChar :: line) rest
    else
      match splitFieldLine line with
      | none => none
      | some nv => (parseFieldsAux nv.1 nv.2 rest).map (fun fs => (name, val) :: fs)

/-- Modelled from the spec: `Paragraphs::parse_single_paragraph`
(external single-record tokenizer, spec §6): split the text into lines,
allow one trailing line break, and fold the lines into an ordered
field-name/value mapping. -/
def parse_single_paragraph (text : Str) : Option (List (Str × Str)) :=
  let lines0 := splitOnChar nlChar text
  let lines := if lines0.getLast? = some [] then lines0.dropLast else lines0
  match lines with
  | [] => none
  | first :: rest =>
    if isContinuationLine first then none
    else
      match splitFieldLine first with
      | none => none
      | some nv => parseFieldsAux nv.1 nv.2 rest

/-- `vcpkg::serialize` (src lines 231-288): append the record's text to
`out_str`, then re-parse exactly the appended suffix through the
tokenizer and the parsing-path constructor and compare with the original
record.  `none` models the fatal process aborts (parse failure, any
constructor failure, or a round-trip mismatch); `some` is the mutated
output string of the successful call. -/
def serialize (pgh : BinaryParagraph) (out_str : Str) : Option Str :=
  let initial_end := out_str.length
  let out1 := serializeBodyFrom pgh out_str
  let my_paragraph := out1.drop initial_end
  match parse_single_paragraph my_paragraph with
  | none => none
  | some fields =>
    match construct fields with
    | ConstructResult.ok bp => if bp = pgh then some out1 else none
    | _ => none

/-- The ordered field map the tokenizer recovers from `serializeBody`;
each chunk is present under exactly the condition under which
`serializeBodyFrom` emits it. -/
def serializedFields (p : BinaryParagraph) : List (Str × Str) :=
  (if p.spec.name = [] then [] else [(fieldPackage, p.spec.name)])
  ++ (if p.version.text = [] then [] else [(fieldVersion, p.version.text)])
  ++ (if p.version.port_version = 0 then []
      else [(fieldPortVersion, intToStr p.version.port_version)])
  ++ (if p.feature = [] then [] else [(fieldFeature, p.feature)])
  ++ (if p.dependencies = [] ∨ serialize_deps_list p.dependencies p.spec.triplet = [] then []
      else [(fieldDepends, serialize_deps_list p.dependencies p.spec.triplet)])
  ++ (if p.spec.triplet = [] then [] else [(fieldArchitecture, p.spec.triplet)])
  ++ (if sameStr = [] then [] else [(fieldMultiArch, sameStr)])
  ++ (if p.maintainers = [] then []
      else [(fieldMaintainer, List.intercalate parJoiner p.maintainers)])
  ++ (if p.abi = [] then [] else [(fieldAbi, p.abi)])
  ++ (if p.description = [] then []
      else [(fieldDescription, List.intercalate parJoiner p.description)])
  ++ (if p.default_features = [] then []
      else [(fieldDefaultFeatures, List.intercalate commaSpace p.default_features)])

/-- One rendered field block of the serialized text. -/
def renderField (nv : Str × Str) : Str := nv.1 ++ sepColonSpace ++ nv.2 ++ [nlChar]

/-- The serialized text strictly before the (possible) `Depends` line:
Package, Version, Port-Version and Feature chunks. -/
def partBeforeDepends (p : BinaryParagraph) : Str :=
  serialize_string fieldPackage p.spec.name []
  ++ serialize_string fieldVersion p.version.text []
  ++ (if p.version.port_version ≠ 0 then
        fieldPortVersion ++ sepColonSpace ++ intToStr p.version.port_version ++ [nlChar]
      else [])
  ++ (if p.is_feature then serialize_string fieldFeature p.feature [] else [])

/-- The serialized text strictly after the (possible) `Depends` line:
Architecture, Multi-Arch, Maintainer, Abi, Description and
Default-Features chunks. -/
def partAfterDepends (p : BinaryParagraph) : Str :=
  serialize_string fieldArchitecture p.spec.triplet []
  ++ serialize_string fieldMultiArch sameStr []
  ++ serialize_paragraph fieldMaintainer p.maintainers []
  ++ serialize_string fieldAbi p.abi []
  ++ serialize_paragraph fieldDescription p.description []
  ++ serialize_array fieldDefaultFeatures p.default_features [] commaSpace

/-- A free-text line that survives serialization and re-parsing
unchanged: nonempty, already trimmed, and free of line breaks. -/
def lineOk (l : Str) : Bool := !l.isEmpty && trimStr l = l && l.all (fun c => c != nlChar)

/-- Strict sortedness of a dependency list in PackageSpec order. -/
def strictSortedB : List PackageSpec → Bool
  | [] => true
  | [_] => true
  | a :: b :: rest => decide (a < b) && strictSortedB (b :: rest)

/-- A valid `BinaryParagraph` in the sense of the spec's data-model
invariants (§3): nonempty well-formed name and triplet tokens, a
non-negative port version, line-break-free scalar fields, trimmed
nonempty description and maintainer lines, well-formed dependency and
default-feature name tokens, a strictly sorted deduplicated dependency
list, and no default features on a feature record. -/
def validRecord (p : BinaryParagraph) : Bool :=
  validIdent p.spec.name && validIdent p.spec.triplet &&
  decide (0 ≤ p.version.port_version) &&
  p.version.text.all (fun c => c != nlChar) &&
  (p.feature.isEmpty || validIdent p.feature) &&
  p.abi.all (fun c => c != nlChar) &&
  p.maintainers.all lineOk &&
  p.description.all lineOk &&
  p.dependencies.all (fun d => validIdent d.name && validIdent d.triplet) &&
  strictSortedB p.dependencies &&
  (p.feature.isEmpty || p.default_features.isEmpty) &&
  p.default_features.all validIdent

/-- The core record of spec §8 Scenario A: zlib 1.3 on x64-linux with an
abi tag, extended with two dependencies and a maintainer line so that
every serialization rule is exercised. -/
def exampleRecord : BinaryParagraph :=
  { spec := ⟨("zlib".toList), ("x64-linux".toList)⟩
    version := ⟨("1.3".toList), 2⟩
    description := [("a compression library".toList)]
    maintainers := [("someone".toList)]
    feature := []
    default_features := [("foo".toList)]
    dependencies := [⟨("openssl".toList), ("x64-linux".toList)⟩,
                     ⟨("zlib".toList), ("x64-windows".toList)⟩]
    abi := ("abc123".toList) }

/-- A feature record used by witnesses. -/
def exampleFeatureRecord : BinaryParagraph :=
  { spec := ⟨("zlib".toList), ("x64-linux".toList)⟩
    version := ⟨[], 0⟩
    description := []
    maintainers := []
    feature := ("core".toList)
    default_features := []
    dependencies := []
    abi := [] }

/-- A field map carrying `Port-Version: -1` on an otherwise valid
record. -/
def negativePortVersionFields : List (Str × Str) :=
  [(fieldPackage, ("zlib".toList)),
   (fieldArchitecture, ("x64-linux".toList)),
   (fieldMultiArch, sameStr),
   (fieldPortVersion, ("-1".toList))]

/-- A field map whose `Depends` value is malformed (a dangling comma)
while the record also misses the required `Package` field, so that an
accumulated error and the dependency-list failure coexist. -/
def malformedDependsFields : List (Str × Str) :=
  [(fieldArchitecture, ("x64-linux".toList)),
   (fieldMultiArch, sameStr),
   (fieldDepends, ("openssl,,".toList))]

/-- A field map with `Multi-Arch: x64` on an otherwise valid record. -/
def badMultiArchFields : List (Str × Str) :=
  [(fieldPackage, ("zlib".toList)),
   (fieldArchitecture, ("x64-linux".toList)),
   (fieldMultiArch, ("x64".toList))]

/-- A field map for a feature record that carries a (well-formed)
`Default-Features` field. -/
def featureWithDefaultsFields : List (Str × Str) :=
  [(fieldPackage, ("zlib".toList)),
   (fieldArchitecture, ("x64-linux".toList)),
   (fieldMultiArch, sameStr),
   (fieldFeature, ("extras".toList)),
   (fieldDefaultFeatures, ("foo, bar".toList))]

/-- A field map whose `Maintainer` value consists of whitespace lines
only (the `"   \n   "` of spec §8), on an otherwise valid record. -/
def blankMaintainerFields : List (Str × Str) :=
  [(fieldPackage, ("zlib".toList)),
   (fieldArchitecture, ("x64-linux".toList)),
   (fieldMultiArch, sameStr),
   (fieldMaintainer, ("   \n   ".toList))]

/-- Remove every field of the given name from a field map. -/
def eraseField (fields : List (Str × Str)) (name : Str) : List (Str × Str) :=
  fields.filter (fun nv => nv.1 != name)

/-- A record whose single dependency has an empty name and the record's
own triplet, so that `serialize_deps_list` renders the empty string. -/
def emptyDepNameRecord : BinaryParagraph :=
  { spec := ⟨("a".toList), ("t".toList)⟩
    version := ⟨[], 0⟩
    description := []
    maintainers := []
    feature := []
    default_features := []
    dependencies := [⟨[], ("t".toList)⟩]
    abi := [] }

/-- Substring test used to state that a serialized body contains no
`Depends` line at all. -/
def containsSub (needle hay : Str) : Bool :=
  match hay with
  | [] => needle.isEmpty
  | _ :: rest => needle.isPrefixOf hay || containsSub needle rest

/-- The PackageSpec the parsing-path constructor builds from the two
required fields (src lines 35-36). -/
def parsedSpec (fields : List (Str × Str)) : PackageSpec :=
  ⟨(requiredField fields fieldPackage []).1,
    Triplet.from_canonical_name
      ((requiredField fields fieldArchitecture (requiredField fields fieldPackage []).2).1)⟩

/-- The port version and the error list accumulated after the Package,
Architecture and Port-Version reads (src lines 35-54). -/
def pvParse (fields : List (Str × Str)) : Int × List ParseError :=
  if optionalField fields fieldPortVersion = [] then
    (0, (requiredField fields fieldArchitecture (requiredField fields fieldPackage []).2).2)
  else
    match Strings.strto (optionalField fields fieldPortVersion) with
    | some v =>
      (v, (requiredField fields fieldArchitecture (requiredField fields fieldPackage []).2).2)
    | none =>
      (0, (requiredField fields fieldArchitecture (requiredField fields fieldPackage []).2).2
        ++ [ParseError.portVersionNotInteger])

/-- The Multi-Arch value and the full accumulated error list of one parse
attempt (src line 62). -/
def multiArchRead (fields : List (Str × Str)) : Str × List ParseError :=
  requiredField fields fieldMultiArch (pvParse fields).2

/-- Four spaces: the continuation indent of the line-folding grammar. -/
def spaces4 : Str := ("    ".toList)

/-- A field name the tokenizer can recover from a rendered `Name: value`
line: nonempty, free of colons and line breaks, and not starting with
whitespace (which would mark a continuation line). -/
@[reducible] def goodName (n : Str) : Prop :=
  n ≠ [] ∧ colonChar ∉ n ∧ nlChar ∉ n ∧ isContinuationLine n = false

/-- A field the tokenizer can recover from its rendered block: a good
name, and every line of the value after the first folds back as a
nonempty continuation line. -/
def GoodField (nv : Str × Str) : Prop :=
  goodName nv.1 ∧
  ∀ l ∈ (splitOnChar nlChar nv.2).tail, l ≠ [] ∧ isContinuationLine l = true

/-- The physical text lines of one rendered field block (without their
terminating line breaks). -/
def fieldLines (nv : Str × Str) : List Str :=
  match splitOnChar nlChar nv.2 with
  | [] => []
  | v0 :: vs => (nv.1 ++ sepColonSpace ++ v0) :: vs

/-- The record `featureWithDefaultsFields` parses to: the stray
`Default-Features` field is ignored. -/
def exampleFeatureParsed : BinaryParagraph :=
  { spec := ⟨("zlib".toList), ("x64-linux".toList)⟩
    version := ⟨[], 0⟩
    description := []
    maintainers := []
    feature := ("extras".toList)
    default_features := []
    dependencies := []
    abi := [] }

/-- A field map whose `Depends` value lists dependencies out of order and
with a duplicate. -/
def depsExampleFields : List (Str × Str) :=
  [(fieldPackage, ("zlib".toList)),
   (fieldArchitecture, ("x64-linux".toList)),
   (fieldMultiArch, sameStr),
   (fieldDepends, ("zlib:x64-windows, openssl, openssl".toList))]

/-- The record `depsExampleFields` parses to: dependencies deduplicated
and sorted by PackageSpec order. -/
def depsExampleParsed : BinaryParagraph :=
  { spec := ⟨("zlib".toList), ("x64-linux".toList)⟩
    version := ⟨[], 0⟩
    description := []
    maintainers := []
    feature := []
    default_features := []
    dependencies := [⟨("openssl".toList), ("x64-linux".toList)⟩,
                     ⟨("zlib".toList), ("x64-windows".toList)⟩]
    abi := [] }

theorem ws_cases {c : Char} (h : c.isWhitespace = true) :
    c = ' ' ∨ c = '\t' ∨ c = '\r' ∨ c = '\n' := by
  have h' := h
  unfold Char.isWhitespace at h'
  simpa [Bool.or_eq_true, decide_eq_true_eq, or_assoc] using h'

theorem identChar_not_ws {c : Char} (h : identChar c = true) : c.isWhitespace = false := by
  by_contra hne
  have hws : c.isWhitespace = true := by
    cases hcw : c.isWhitespace
    · exact absurd hcw hne
    · rfl
  rcases ws_cases hws with rfl | rfl | rfl | rfl <;> simp [identChar] at h

theorem identChar_ne_colon {c : Char} (h : identChar c = true) : c ≠ colonChar := by
  intro he
  subst he
  simp [identChar, colonChar, Char.isLower, Char.isDigit] at h

theorem identChar_ne_comma {c : Char} (h : identChar c = true) : c ≠ commaChar := by
  intro he
  subst he
  simp [identChar, commaChar, Char.isLower, Char.isDigit] at h

theorem identChar_ne_nl {c : Char} (h : identChar c = true) : c ≠ nlChar := by
  intro he
  subst he
  simp [identChar, nlChar, Char.isLower, Char.isDigit] at h

theorem isDigit_not_ws {c : Char} (h : c.isDigit = true) : c.isWhitespace = false :=
  identChar_not_ws (by simp [identChar, h])

theorem isDigit_ne_nl {c : Char} (h : c.isDigit = true) : c ≠ nlChar :=
  identChar_ne_nl (by simp [identChar, h])

theorem splitOnChar_ne_nil (c : Char) (s : Str) : splitOnChar c s ≠ [] := by
  induction s with
  | nil => simp [splitOnChar]
  | cons x xs ih =>
    simp only [splitOnChar]
    cases hsp : splitOnChar c xs with
    | nil => simp
    | cons y ys =>
      by_cases hx : x = c <;> simp [hx]

theorem splitOnChar_of_not_mem {c : Char} {s : Str} (h : c ∉ s) :
    splitOnChar c s = [s] := by
  induction s with
  | nil => rfl
  | cons x xs ih =>
    have hx : x ≠ c := fun he => h (he ▸ List.mem_cons_self x xs)
    have hxs : c ∉ xs := fun hm => h (List.mem_cons_of_mem x hm)
    simp only [splitOnChar, ih hxs, hx, if_false]

theorem splitOnChar_append_cons {c : Char} {a : Str} (b : Str) (h : c ∉ a) :
    splitOnChar c (a ++ c :: b) = a :: splitOnChar c b := by
  induction a with
  | nil =>
    simp only [List.nil_append, splitOnChar]
    cases hsp : splitOnChar c b with
    | nil => exact absurd hsp (splitOnChar_ne_nil c b)
    | cons y ys => simp
  | cons x xs ih =>
    have hx : x ≠ c := fun he => h (he ▸ List.mem_cons_self x xs)
    have hxs : c ∉ xs := fun hm => h (List.mem_cons_of_mem x hm)
    rw [List.cons_append, splitOnChar, ih hxs]
    simp [hx]

theorem mem_of_mem_splitOnChar {c : Char} {s l : Str} {x : Char}
    (hl : l ∈ splitOnChar c s) (hx : x ∈ l) : x ∈ s := by
  induction s generalizing l x with
  | nil =>
    simp [splitOnChar] at hl
    subst hl
    exact absurd hx (List.not_mem_nil x)
  | cons y ys ih =>
    simp only [splitOnChar] at hl
    cases hsp : splitOnChar c ys with
    | nil => exact absurd hsp (splitOnChar_ne_nil c ys)
    | cons z zs =>
      rw [hsp] at hl
      by_cases hy : y = c
      · simp only [hy, if_true] at hl
        rcases List.mem_cons.1 hl with rfl | hl'
        · exact absurd hx (List.not_mem_nil x)
        · exact List.mem_cons_of_mem y (ih (by rw [hsp]; exact hl') hx)
      · simp only [hy, if_false] at hl
        rcases List.mem_cons.1 hl with rfl | hl'
        · rcases List.mem_cons.1 hx with rfl | hx'
          · exact List.mem_cons_self x ys
          · exact List.mem_cons_of_mem y
              (ih (by rw [hsp]; exact List.mem_cons_self z zs) hx')
        · exact List.mem_cons_of_mem y
            (ih (by rw [hsp]; exact List.mem_cons_of_mem z hl') hx)

theorem not_mem_of_mem_splitOnChar {c : Char} {s l : Str}
    (hl : l ∈ splitOnChar c s) : c ∉ l := by
  induction s generalizing l with
  | nil =>
    simp [splitOnChar] at hl
    subst hl
    exact List.not_mem_nil c
  | cons y ys ih =>
    simp only [splitOnChar] at hl
    cases hsp : splitOnChar c ys with
    | nil => exact absurd hsp (splitOnChar_ne_nil c ys)
    | cons z zs =>
      rw [hsp] at hl
      by_cases hy : y = c
      · simp only [hy, if_true] at hl
        rcases List.mem_cons.1 hl with rfl | hl'
        · exact List.not_mem_nil c
        · exact ih (hsp ▸ hl')
      · simp only [hy, if_false] at hl
        rcases List.mem_cons.1 hl with rfl | hl'
        · intro hmem
          rcases List.mem_cons.1 hmem with he | hmem'
          · exact hy he.symm
          · exact ih (hsp ▸ List.mem_cons_self z zs) hmem'
        · exact ih (hsp ▸ List.mem_cons_of_mem z hl')

theorem intercalate_cons_eq (c : Char) (x : Str) (xs : List Str) :
    List.intercalate [c] (x :: xs) = x ++ (xs.map (fun l => c :: l)).flatten := by
  induction xs generalizing x with
  | nil => simp [List.intercalate]
  | cons y ys ih =>
    have hy := ih y
    simp only [List.intercalate, List.intersperse] at hy ⊢
    simp only [List.flatten_cons]
    cases ys with
    | nil => simp [List.intercalate, List.intersperse]
    | cons z zs =>
      simp only [List.intersperse] at hy ⊢
      simp [List.append_assoc, hy]

theorem intercalate_splitOnChar (c : Char) (s : Str) :
    List.intercalate [c] (splitOnChar c s) = s := by
  induction s with
  | nil => rfl
  | cons x xs ih =>
    simp only [splitOnChar]
    cases hsp : splitOnChar c xs with
    | nil => exact absurd hsp (splitOnChar_ne_nil c xs)
    | cons y ys =>
      rw [hsp] at ih
      rw [intercalate_cons_eq] at ih
      by_cases hx : x = c
      · subst hx
        simp only [if_true]
        rw [intercalate_cons_eq]
        simp only [List.map_cons, List.flatten_cons, List.nil_append, List.cons_append]
        simp [ih]
      · simp only [hx, if_false]
        rw [intercalate_cons_eq]
        simp only [List.cons_append]
        simp [ih]

theorem dropWhile_head_false {p : Char → Bool} :
    ∀ {l : Str} {a : Char} {t : Str}, l.dropWhile p = a :: t → p a = false := by
  intro l
  induction l with
  | nil => intro a t h; simp at h
  | cons x xs ih =>
    intro a t h
    rw [List.dropWhile_cons] at h
    by_cases hp : p x = true
    · exact ih (by simpa [hp] using h)
    · have hx : x = a := by
        simp only [hp, if_false] at h
        exact (List.cons.injEq .. ▸ h).1
      subst hx
      simpa using hp

theorem trim_eq_self_of {s : Str}
    (h1 : ∀ a ∈ s.head?, a.isWhitespace = false)
    (h2 : ∀ a ∈ s.getLast?, a.isWhitespace = false) : trimStr s = s := by
  unfold trimStr
  have hd : s.dropWhile Char.isWhitespace = s := by
    cases s with
    | nil => rfl
    | cons a t =>
      rw [List.dropWhile_cons]
      simp [h1 a rfl]
  rw [hd]
  have hr : s.reverse.dropWhile Char.isWhitespace = s.reverse := by
    cases hsr : s.reverse with
    | nil => rfl
    | cons a t =>
      rw [List.dropWhile_cons]
      have ha : a ∈ s.getLast? := by
        rw [← List.head?_reverse, hsr]
        rfl
      simp [h2 a ha]
  rw [hr, List.reverse_reverse]

theorem trim_head_not_ws {s : Str} : ∀ a ∈ (trimStr s).head?, a.isWhitespace = false := by
  intro a ha
  unfold trimStr at ha
  set t1 := s.dropWhile Char.isWhitespace with ht1
  obtain ⟨pre, hpre⟩ := (List.dropWhile_suffix Char.isWhitespace :
    t1.reverse.dropWhile Char.isWhitespace <:+ t1.reverse)
  set X := t1.reverse.dropWhile Char.isWhitespace with hX
  have ht1X : t1 = X.reverse ++ pre.reverse := by
    have h' := (congrArg List.reverse hpre).symm
    simpa using h'
  cases hXr : X.reverse with
  | nil => rw [hXr] at ha; simp at ha
  | cons b bs =>
    have hb : b = a := by
      rw [hXr] at ha
      simpa using ha
    subst hb
    have hcons : t1 = b :: (bs ++ pre.reverse) := by rw [ht1X, hXr]; simp
    exact dropWhile_head_false (ht1 ▸ hcons)

theorem trim_last_not_ws {s : Str} : ∀ a ∈ (trimStr s).getLast?, a.isWhitespace = false := by
  intro a ha
  unfold trimStr at ha
  rw [List.getLast?_reverse] at ha
  cases hX : (s.dropWhile Char.isWhitespace).reverse.dropWhile Char.isWhitespace with
  | nil => rw [hX] at ha; simp at ha
  | cons b bs =>
    have hb : b = a := by rw [hX] at ha; simpa using ha
    subst hb
    exact dropWhile_head_false hX

theorem trim_idem (s : Str) : trimStr (trimStr s) = trimStr s :=
  trim_eq_self_of trim_head_not_ws trim_last_not_ws

theorem trim_cons_ws {c : Char} (h : c.isWhitespace = true) (l : Str) :
    trimStr (c :: l) = trimStr l := by
  unfold trimStr
  rw [List.dropWhile_cons]
  simp [h]

theorem trim_eq_nil_of_all_ws {s : Str} (h : ∀ x ∈ s, x.isWhitespace = true) :
    trimStr s = [] := by
  unfold trimStr
  rw [List.dropWhile_eq_nil_iff.2 h]
  rfl

theorem trim_of_no_ws {s : Str} (h : ∀ x ∈ s, x.isWhitespace = false) : trimStr s = s :=
  trim_eq_self_of
    (fun a ha => h a (List.mem_of_mem_head? ha))
    (fun a ha => h a (by
      have ha' : a ∈ s.reverse.head? := by rw [List.head?_reverse]; exact ha
      simpa using List.mem_of_mem_head? ha'))

theorem trim_spaces4 (m : Str) (hm : trimStr m = m) :
    trimStr (("    ".toList) ++ m) = m := by
  show trimStr (' ' :: ' ' :: ' ' :: ' ' :: m) = m
  rw [trim_cons_ws (by decide), trim_cons_ws (by decide), trim_cons_ws (by decide),
    trim_cons_ws (by decide), hm]

theorem trim_of_validIdent {s : Str} (h : validIdent s = true) : trimStr s = s := by
  apply trim_of_no_ws
  intro x hx
  have := (List.all_eq_true.1 (Bool.and_eq_true .. ▸ h).2) x hx
  exact identChar_not_ws this

theorem digitChar_isDigit {n : Nat} (h : n < 10) : (digitChar n).isDigit = true := by
  interval_cases n <;> decide

theorem digitChar_val {n : Nat} (h : n < 10) : charVal (digitChar n) = n := by
  interval_cases n <;> decide

theorem natToStrAux_congr :
    ∀ n fuel1 fuel2 : Nat, n < fuel1 → n < fuel2 →
      natToStrAux fuel1 n = natToStrAux fuel2 n := by
  intro n
  induction n using Nat.strongRecOn with
  | _ n ih =>
    intro fuel1 fuel2 h1 h2
    cases fuel1 with
    | zero => omega
    | succ f1 =>
      cases fuel2 with
      | zero => omega
      | succ f2 =>
        simp only [natToStrAux]
        by_cases h : n < 10
        · simp [h]
        · simp only [h, if_false]
          rw [ih (n / 10) (Nat.div_lt_self (by omega) (by omega)) f1 f2
            (by omega) (by omega)]

theorem natToStr_unfold (n : Nat) :
    natToStr n = if n < 10 then [digitChar n]
      else natToStr (n / 10) ++ [digitChar (n % 10)] := by
  unfold natToStr
  show natToStrAux (n + 1) n = _
  rw [show natToStrAux (n + 1) n =
      (if n < 10 then [digitChar n] else natToStrAux n (n / 10) ++ [digitChar (n % 10)])
    from rfl]
  by_cases h : n < 10
  · simp [h]
  · simp only [h, if_false]
    rw [natToStrAux_congr (n / 10) n (n / 10 + 1) (by omega) (by omega)]

theorem natToStr_all_digit (n : Nat) : ∀ c ∈ natToStr n, c.isDigit = true := by
  induction n using Nat.strongRecOn with
  | _ n ih =>
    intro c hc
    rw [natToStr_unfold] at hc
    by_cases h : n < 10
    · simp only [h, if_pos] at hc
      rcases List.mem_singleton.1 hc with rfl
      exact digitChar_isDigit h
    · simp only [h, if_false] at hc
      rcases List.mem_append.1 hc with hc1 | hc2
      · exact ih (n / 10) (Nat.div_lt_self (by omega) (by omega)) c hc1
      · rcases List.mem_singleton.1 hc2 with rfl
        exact digitChar_isDigit (Nat.mod_lt n (by omega))

theorem natToStr_ne_nil (n : Nat) : natToStr n ≠ [] := by
  rw [natToStr_unfold]
  by_cases h : n < 10 <;> simp [h]

theorem foldl_natToStr (n : Nat) :
    ∀ a, (natToStr n).foldl (fun a c => a * 10 + charVal c) a =
      a * 10 ^ (natToStr n).length + n := by
  induction n using Nat.strongRecOn with
  | _ n ih =>
    intro a
    rw [natToStr_unfold]
    by_cases h : n < 10
    · simp only [h, if_pos, List.foldl_cons, List.foldl_nil, List.length_singleton]
      rw [digitChar_val h]
      ring
    · simp only [h, if_false]
      rw [List.foldl_append, List.foldl_cons, List.foldl_nil,
        ih (n / 10) (Nat.div_lt_self (by omega) (by omega)) a,
        digitChar_val (Nat.mod_lt n (by omega)), List.length_append,
        List.length_singleton, pow_succ]
      have hdm : 10 * (n / 10) + n % 10 = n := Nat.div_add_mod n 10
      calc (a * 10 ^ (natToStr (n / 10)).length + n / 10) * 10 + n % 10
          = a * (10 ^ (natToStr (n / 10)).length * 10) + (10 * (n / 10) + n % 10) := by
            ring
        _ = a * (10 ^ (natToStr (n / 10)).length * 10) + n := by rw [hdm]

theorem strto_natToStr (n : Nat) : Strings.strto (natToStr n) = some (Int.ofNat n) := by
  unfold Strings.strto
  have h1 : natToStr n ≠ [] := natToStr_ne_nil n
  have h2 : (natToStr n).all Char.isDigit = true :=
    List.all_eq_true.2 (natToStr_all_digit n)
  rw [if_pos (by rw [h2, decide_eq_true h1]; rfl)]
  rw [show (natToStr n).foldl (fun a c => a * 10 + charVal c) 0 = n by
    rw [foldl_natToStr n 0]; simp]

theorem strto_intToStr {i : Int} (h : 0 ≤ i) : Strings.strto (intToStr i) = some i := by
  unfold intToStr
  rw [if_neg (by omega)]
  rw [strto_natToStr]
  congr 1
  exact Int.toNat_of_nonneg h

theorem intToStr_all_digit {i : Int} (h : 0 ≤ i) : ∀ c ∈ intToStr i, c.isDigit = true := by
  unfold intToStr
  rw [if_neg (by omega)]
  exact natToStr_all_digit i.toNat

theorem intToStr_ne_nil (i : Int) : intToStr i ≠ [] := by
  unfold intToStr
  by_cases h : i < 0
  · simp [h]
  · simp only [h, if_false]
    exact natToStr_ne_nil i.toNat

theorem ps_lt_iff (a b : PackageSpec) :
    a < b ↔ a.name < b.name ∨ (a.name = b.name ∧ a.triplet < b.triplet) := by
  show toLex (a.name, a.triplet) < toLex (b.name, b.triplet) ↔ _
  rw [Prod.Lex.lt_iff]

theorem strictSortedB_iff : ∀ l, strictSortedB l = true ↔ List.Pairwise (· < ·) l
  | [] => by simp [strictSortedB]
  | [a] => by simp [strictSortedB]
  | a :: b :: rest => by
    rw [strictSortedB, Bool.and_eq_true, decide_eq_true_eq, strictSortedB_iff (b :: rest)]
    constructor
    · rintro ⟨hab, hp⟩
      refine List.pairwise_cons.2 ⟨?_, hp⟩
      intro x hx
      rcases List.mem_cons.1 hx with rfl | hx'
      · exact hab
      · exact lt_trans hab ((List.pairwise_cons.1 hp).1 x hx')
    · intro hp
      exact ⟨(List.pairwise_cons.1 hp).1 b (List.mem_cons_self b rest),
        (List.pairwise_cons.1 hp).2⟩

theorem mem_dedupAdjacent : ∀ {l x}, x ∈ dedupAdjacent l → x ∈ l
  | [], x, h => by simp [dedupAdjacent] at h
  | [a], x, h => by simpa [dedupAdjacent] using h
  | a :: b :: rest, x, h => by
    rw [dedupAdjacent] at h
    by_cases hab : a = b
    · simp only [hab, if_true] at h
      exact List.mem_cons_of_mem a (mem_dedupAdjacent h)
    · simp only [hab, if_false] at h
      rcases List.mem_cons.1 h with rfl | h'
      · exact List.mem_cons_self x (b :: rest)
      · exact List.mem_cons_of_mem a (mem_dedupAdjacent h')

theorem dedupAdjacent_pairwise :
    ∀ {l}, List.Pairwise (· ≤ ·) l → List.Pairwise (· < ·) (dedupAdjacent l)
  | [], _ => by simp [dedupAdjacent]
  | [a], _ => by simp [dedupAdjacent]
  | a :: b :: rest, h => by
    rw [dedupAdjacent]
    have htail : List.Pairwise (· ≤ ·) (b :: rest) := (List.pairwise_cons.1 h).2
    by_cases hab : a = b
    · simp only [hab, if_true]
      exact dedupAdjacent_pairwise htail
    · simp only [hab, if_false]
      refine List.pairwise_cons.2 ⟨?_, dedupAdjacent_pairwise htail⟩
      intro x hx
      have hxm : x ∈ b :: rest := mem_dedupAdjacent hx
      have hab' : a < b :=
        lt_of_le_of_ne ((List.pairwise_cons.1 h).1 b (List.mem_cons_self b rest)) hab
      rcases List.mem_cons.1 hxm with rfl | hx'
      · exact hab'
      · exact lt_of_lt_of_le hab' ((List.pairwise_cons.1 htail).1 x hx')

theorem dedupAdjacent_eq_self :
    ∀ {l : List PackageSpec}, List.Pairwise (· < ·) l → dedupAdjacent l = l
  | [], _ => rfl
  | [a], _ => rfl
  | a :: b :: rest, h => by
    rw [dedupAdjacent]
    have hab : a ≠ b :=
      ne_of_lt ((List.pairwise_cons.1 h).1 b (List.mem_cons_self b rest))
    simp only [hab, if_false]
    rw [dedupAdjacent_eq_self (List.pairwise_cons.1 h).2]

theorem sortUniqueErase_pairwise (l : List PackageSpec) :
    List.Pairwise (· < ·) (sortUniqueErase l) :=
  dedupAdjacent_pairwise (List.sorted_insertionSort (· ≤ ·) l)

theorem sortUniqueErase_nodup (l : List PackageSpec) : (sortUniqueErase l).Nodup :=
  List.Sorted.nodup (sortUniqueErase_pairwise l)

theorem sortUniqueErase_eq_self {l : List PackageSpec}
    (h : List.Pairwise (· < ·) l) : sortUniqueErase l = l := by
  unfold sortUniqueErase
  rw [List.Sorted.insertionSort_eq (h.imp le_of_lt), dedupAdjacent_eq_self h]

theorem splitOnChar_flatten_lines {c : Char} {ls : List Str}
    (h : ∀ l ∈ ls, c ∉ l) :
    splitOnChar c ((ls.map (fun l => l ++ [c])).flatten) = ls ++ [[]] := by
  induction ls with
  | nil => rfl
  | cons l rest ih =>
    have hl : c ∉ l := h l (List.mem_cons_self l rest)
    have hrest : ∀ x ∈ rest, c ∉ x := fun x hx => h x (List.mem_cons_of_mem l hx)
    simp only [List.map_cons, List.flatten_cons]
    rw [List.append_assoc, List.singleton_append, splitOnChar_append_cons _ hl, ih hrest]
    rfl

theorem getField_chunk_ne (c : Prop) [Decidable c] {m : Str} (v : Str) {n : Str}
    (l2 : List (Str × Str)) (h : m ≠ n) :
    getField ((if c then [] else [(m, v)]) ++ l2) n = getField l2 n := by
  split
  · simp
  · simp [getField, h]

theorem getField_chunk_ne_last (c : Prop) [Decidable c] {m : Str} (v : Str) {n : Str}
    (h : m ≠ n) :
    getField (if c then [] else [(m, v)]) n = none := by
  split
  · rfl
  · simp [getField, h]

theorem getField_chunk_hit (c : Prop) [Decidable c] {m : Str} (v : Str)
    (l2 : List (Str × Str)) :
    getField ((if c then [] else [(m, v)]) ++ l2) m =
      if c then getField l2 m else some v := by
  split
  · simp
  · simp [getField]

theorem getField_chunk_hit_last (c : Prop) [Decidable c] {m : Str} (v : Str) :
    getField (if c then [] else [(m, v)]) m = if c then none else some v := by
  split
  · rfl
  · simp [getField]

theorem sf_package (p : BinaryParagraph) :
    getField (serializedFields p) fieldPackage =
      if p.spec.name = [] then none else some p.spec.name := by
  unfold serializedFields
  simp only [List.append_assoc]
  rw [getField_chunk_hit,
    getField_chunk_ne _ _ _ (by decide), getField_chunk_ne _ _ _ (by decide),
    getField_chunk_ne _ _ _ (by decide), getField_chunk_ne _ _ _ (by decide),
    getField_chunk_ne _ _ _ (by decide), getField_chunk_ne _ _ _ (by decide),
    getField_chunk_ne _ _ _ (by decide), getField_chunk_ne _ _ _ (by decide),
    getField_chunk_ne _ _ _ (by decide), getField_chunk_ne_last _ _ (by decide)]

theorem sf_version (p : BinaryParagraph) :
    getField (serializedFields p) fieldVersion =
      if p.version.text = [] then none else some p.version.text := by
  unfold serializedFields
  simp only [List.append_assoc]
  rw [getField_chunk_ne _ _ _ (by decide), getField_chunk_hit,
    getField_chunk_ne _ _ _ (by decide), getField_chunk_ne _ _ _ (by decide),
    getField_chunk_ne _ _ _ (by decide), getField_chunk_ne _ _ _ (by decide),
    getField_chunk_ne _ _ _ (by decide), getField_chunk_ne _ _ _ (by decide),
    getField_chunk_ne _ _ _ (by decide), getField_chunk_ne _ _ _ (by decide),
    getField_chunk_ne_last _ _ (by decide)]

theorem sf_port_version (p : BinaryParagraph) :
    getField (serializedFields p) fieldPortVersion =
      if p.version.port_version = 0 then none
      else some (intToStr p.version.port_version) := by
  unfold serializedFields
  simp only [List.append_assoc]
  rw [getField_chunk_ne _ _ _ (by decide), getField_chunk_ne _ _ _ (by decide),
    getField_chunk_hit,
    getField_chunk_ne _ _ _ (by decide), getField_chunk_ne _ _ _ (by decide),
    getField_chunk_ne _ _ _ (by decide), getField_chunk_ne _ _ _ (by decide),
    getField_chunk_ne _ _ _ (by decide), getField_chunk_ne _ _ _ (by decide),
    getField_chunk_ne _ _ _ (by decide), getField_chunk_ne_last _ _ (by decide)]

theorem sf_feature (p : BinaryParagraph) :
    getField (serializedFields p) fieldFeature =
      if p.feature = [] then none else some p.feature := by
  unfold serializedFields
  simp only [List.append_assoc]
  rw [getField_chunk_ne _ _ _ (by decide), getField_chunk_ne _ _ _ (by decide),
    getField_chunk_ne _ _ _ (by decide), getField_chunk_hit,
    getField_chunk_ne _ _ _ (by decide), getField_chunk_ne _ _ _ (by decide),
    getField_chunk_ne _ _ _ (by decide), getField_chunk_ne _ _ _ (by decide),
    getField_chunk_ne _ _ _ (by decide), getField_chunk_ne _ _ _ (by decide),
    getField_chunk_ne_last _ _ (by decide)]

theorem sf_depends (p : BinaryParagraph) :
    getField (serializedFields p) fieldDepends =
      if p.dependencies = [] ∨ serialize_deps_list p.dependencies p.spec.triplet = []
      then none
      else some (serialize_deps_list p.dependencies p.spec.triplet) := by
  unfold serializedFields
  simp only [List.append_assoc]
  rw [getField_chunk_ne _ _ _ (by decide), getField_chunk_ne _ _ _ (by decide),
    getField_chunk_ne _ _ _ (by decide), getField_chunk_ne _ _ _ (by decide),
    getField_chunk_hit,
    getField_chunk_ne _ _ _ (by decide), getField_chunk_ne _ _ _ (by decide),
    getField_chunk_ne _ _ _ (by decide), getField_chunk_ne _ _ _ (by decide),
    getField_chunk_ne _ _ _ (by decide), getField_chunk_ne_last _ _ (by decide)]

theorem sf_architecture (p : BinaryParagraph) :
    getField (serializedFields p) fieldArchitecture =
      if p.spec.triplet = [] then none else some p.spec.triplet := by
  unfold serializedFields
  simp only [List.append_assoc]
  rw [getField_chunk_ne _ _ _ (by decide), getField_chunk_ne _ _ _ (by decide),
    getField_chunk_ne _ _ _ (by decide), getField_chunk_ne _ _ _ (by decide),
    getField_chunk_ne _ _ _ (by decide), getField_chunk_hit,
    getField_chunk_ne _ _ _ (by decide), getField_chunk_ne _ _ _ (by decide),
    getField_chunk_ne _ _ _ (by decide), getField_chunk_ne _ _ _ (by decide),
    getField_chunk_ne_last _ _ (by decide)]

theorem sf_multi_arch (p : BinaryParagraph) :
    getField (serializedFields p) fieldMultiArch = some sameStr := by
  unfold serializedFields
  simp only [List.append_assoc]
  rw [getField_chunk_ne _ _ _ (by decide), getField_chunk_ne _ _ _ (by decide),
    getField_chunk_ne _ _ _ (by decide), getField_chunk_ne _ _ _ (by decide),
    getField_chunk_ne _ _ _ (by decide), getField_chunk_ne _ _ _ (by decide),
    getField_chunk_hit]
  simp [sameStr]

theorem sf_maintainer (p : BinaryParagraph) :
    getField (serializedFields p) fieldMaintainer =
      if p.maintainers = [] then none
      else some (List.intercalate parJoiner p.maintainers) := by
  unfold serializedFields
  simp only [List.append_assoc]
  rw [getField_chunk_ne _ _ _ (by decide), getField_chunk_ne _ _ _ (by decide),
    getField_chunk_ne _ _ _ (by decide), getField_chunk_ne _ _ _ (by decide),
    getField_chunk_ne _ _ _ (by decide), getField_chunk_ne _ _ _ (by decide),
    getField_chunk_ne _ _ _ (by decide), getField_chunk_hit,
    getField_chunk_ne _ _ _ (by decide), getField_chunk_ne _ _ _ (by decide),
    getField_chunk_ne_last _ _ (by decide)]

theorem sf_abi (p : BinaryParagraph) :
    getField (serializedFields p) fieldAbi =
      if p.abi = [] then none else some p.abi := by
  unfold serializedFields
  simp only [List.append_assoc]
  rw [getField_chunk_ne _ _ _ (by decide), getField_chunk_ne _ _ _ (by decide),
    getField_chunk_ne _ _ _ (by decide), getField_chunk_ne _ _ _ (by decide),
    getField_chunk_ne _ _ _ (by decide), getField_chunk_ne _ _ _ (by decide),
    getField_chunk_ne _ _ _ (by decide), getField_chunk_ne _ _ _ (by decide),
    getField_chunk_hit,
    getField_chunk_ne _ _ _ (by decide), getField_chunk_ne_last _ _ (by decide)]

theorem sf_description (p : BinaryParagraph) :
    getField (serializedFields p) fieldDescription =
      if p.description = [] then none
      else some (List.intercalate parJoiner p.description) := by
  unfold serializedFields
  simp only [List.append_assoc]
  rw [getField_chunk_ne _ _ _ (by decide), getField_chunk_ne _ _ _ (by decide),
    getField_chunk_ne _ _ _ (by decide), getField_chunk_ne _ _ _ (by decide),
    getField_chunk_ne _ _ _ (by decide), getField_chunk_ne _ _ _ (by decide),
    getField_chunk_ne _ _ _ (by decide), getField_chunk_ne _ _ _ (by decide),
    getField_chunk_ne _ _ _ (by decide), getField_chunk_hit,
    getField_chunk_ne_last _ _ (by decide)]

theorem sf_default_features (p : BinaryParagraph) :
    getField (serializedFields p) fieldDefaultFeatures =
      if p.default_features = [] then none
      else some (List.intercalate commaSpace p.default_features) := by
  unfold serializedFields
  simp only [List.append_assoc]
  rw [getField_chunk_ne _ _ _ (by decide), getField_chunk_ne _ _ _ (by decide),
    getField_chunk_ne _ _ _ (by decide), getField_chunk_ne _ _ _ (by decide),
    getField_chunk_ne _ _ _ (by decide), getField_chunk_ne _ _ _ (by decide),
    getField_chunk_ne _ _ _ (by decide), getField_chunk_ne _ _ _ (by decide),
    getField_chunk_ne _ _ _ (by decide), getField_chunk_ne _ _ _ (by decide),
    getField_chunk_hit_last]

theorem sf_type (p : BinaryParagraph) :
    getField (serializedFields p) fieldType = none := by
  unfold serializedFields
  simp only [List.append_assoc]
  rw [getField_chunk_ne _ _ _ (by decide), getField_chunk_ne _ _ _ (by decide),
    getField_chunk_ne _ _ _ (by decide), getField_chunk_ne _ _ _ (by decide),
    getField_chunk_ne _ _ _ (by decide), getField_chunk_ne _ _ _ (by decide),
    getField_chunk_ne _ _ _ (by decide), getField_chunk_ne _ _ _ (by decide),
    getField_chunk_ne _ _ _ (by decide), getField_chunk_ne _ _ _ (by decide),
    getField_chunk_ne_last _ _ (by decide)]

theorem construct_eq (fields : List (Str × Str)) :
    construct fields =
      match parseQualifiedSpecifierList (optionalField fields fieldDepends) with
      | none => ConstructResult.fatalDependsParse
      | some parsedDeps =>
        match (if optionalField fields fieldFeature = [] then
                parseDefaultFeaturesList (optionalField fields fieldDefaultFeatures)
              else some []) with
        | none => ConstructResult.fatalDefaultFeaturesParse
        | some dfs =>
          if (multiArchRead fields).2 ≠ [] then
            ConstructResult.accumulatedErrors (parsedSpec fields) (multiArchRead fields).2
          else if (multiArchRead fields).1 ≠ sameStr then
            ConstructResult.fatalMultiArch (multiArchRead fields).1
          else
            ConstructResult.ok
              (BinaryParagraph.canonicalize
                ⟨parsedSpec fields,
                  ⟨optionalField fields fieldVersion, (pvParse fields).1⟩,
                  Strings.split (optionalField fields fieldDescription) nlChar,
                  Strings.split (optionalField fields fieldMaintainer) nlChar,
                  optionalField fields fieldFeature, dfs,
                  parsedDeps.map (fun d =>
                    PackageSpec.mk d.1
                      (d.2.map Triplet.from_canonical_name |>.getD (parsedSpec fields).triplet)),
                  optionalField fields fieldAbi⟩) := rfl

theorem canonicalize_spec (p : BinaryParagraph) :
    (BinaryParagraph.canonicalize p).spec = p.spec := rfl

theorem canonicalize_version (p : BinaryParagraph) :
    (BinaryParagraph.canonicalize p).version = p.version := rfl

theorem canonicalize_feature (p : BinaryParagraph) :
    (BinaryParagraph.canonicalize p).feature = p.feature := rfl

theorem canonicalize_default_features (p : BinaryParagraph) :
    (BinaryParagraph.canonicalize p).default_features = p.default_features := rfl

theorem canonicalize_abi (p : BinaryParagraph) :
    (BinaryParagraph.canonicalize p).abi = p.abi := rfl

theorem canonicalize_dependencies (p : BinaryParagraph) :
    (BinaryParagraph.canonicalize p).dependencies = sortUniqueErase p.dependencies := rfl

theorem canonicalize_maintainers (p : BinaryParagraph) :
    (BinaryParagraph.canonicalize p).maintainers =
      if allEmpty (p.maintainers.map trimStr) then [] else p.maintainers.map trimStr := rfl

theorem canonicalize_description (p : BinaryParagraph) :
    (BinaryParagraph.canonicalize p).description =
      if allEmpty (p.description.map trimStr) then [] else p.description.map trimStr := rfl

theorem requiredField_snd (fields : List (Str × Str)) (name : Str) (errs : List ParseError) :
    (requiredField fields name errs).2 =
      errs ++ (if getField fields name = none then [ParseError.missingField name] else []) := by
  unfold requiredField
  cases h : getField fields name <;> simp [h]

theorem requiredField_fst (fields : List (Str × Str)) (name : Str) (errs : List ParseError) :
    (requiredField fields name errs).1 = (getField fields name).getD [] := by
  unfold requiredField
  cases h : getField fields name <;> simp [h]

theorem pvParse_snd (fields : List (Str × Str)) :
    (pvParse fields).2 =
      ((if getField fields fieldPackage = none then [ParseError.missingField fieldPackage]
        else []) ++
       (if getField fields fieldArchitecture = none then
          [ParseError.missingField fieldArchitecture] else [])) ++
      (if optionalField fields fieldPortVersion ≠ [] ∧
          Strings.strto (optionalField fields fieldPortVersion) = none then
        [ParseError.portVersionNotInteger] else []) := by
  unfold pvParse
  by_cases h4 : optionalField fields fieldPortVersion = []
  · rw [if_pos h4, requiredField_snd, requiredField_snd]
    simp [h4]
  · rw [if_neg h4]
    cases h5 : Strings.strto (optionalField fields fieldPortVersion) with
    | none =>
      rw [requiredField_snd, requiredField_snd]
      simp [h4, h5]
    | some v =>
      rw [requiredField_snd, requiredField_snd]
      simp [h4, h5]

theorem pvParse_fst_nonneg (fields : List (Str × Str)) : 0 ≤ (pvParse fields).1 := by
  unfold pvParse
  by_cases h4 : optionalField fields fieldPortVersion = []
  · simp [h4]
  · rw [if_neg h4]
    cases h5 : Strings.strto (optionalField fields fieldPortVersion) with
    | none => simp
    | some v =>
      have : 0 ≤ v := by
        unfold Strings.strto at h5
        by_cases hc : (decide ¬optionalField fields fieldPortVersion = [] &&
            (optionalField fields fieldPortVersion).all Char.isDigit) = true
        · rw [if_pos hc] at h5
          cases h5
          exact Int.ofNat_nonneg _
        · rw [if_neg hc] at h5
          cases h5
      simpa using this

theorem multiArchRead_snd (fields : List (Str × Str)) :
    (multiArchRead fields).2 =
      (pvParse fields).2 ++
        (if getField fields fieldMultiArch = none then
          [ParseError.missingField fieldMultiArch] else []) := by
  unfold multiArchRead
  rw [requiredField_snd]

theorem multiArchRead_fst (fields : List (Str × Str)) :
    (multiArchRead fields).1 = (getField fields fieldMultiArch).getD [] := by
  unfold multiArchRead
  rw [requiredField_fst]

theorem errors_nil_iff (fields : List (Str × Str)) :
    (multiArchRead fields).2 = [] ↔
      (getField fields fieldPackage ≠ none ∧ getField fields fieldArchitecture ≠ none ∧
        getField fields fieldMultiArch ≠ none ∧
        ¬(optionalField fields fieldPortVersion ≠ [] ∧
          Strings.strto (optionalField fields fieldPortVersion) = none)) := by
  rw [multiArchRead_snd, pvParse_snd]
  simp only [List.append_eq_nil, List.append_eq_nil]
  constructor
  · rintro ⟨⟨⟨h1, h2⟩, h3⟩, h4⟩
    refine ⟨?_, ?_, ?_, ?_⟩
    · intro hc; rw [if_pos hc] at h1; exact absurd h1 (by simp)
    · intro hc; rw [if_pos hc] at h2; exact absurd h2 (by simp)
    · intro hc; rw [if_pos hc] at h4; exact absurd h4 (by simp)
    · intro hc; rw [if_pos hc] at h3; exact absurd h3 (by simp)
  · rintro ⟨h1, h2, h3, h4⟩
    exact ⟨⟨⟨by rw [if_neg h1], by rw [if_neg h2]⟩, by rw [if_neg h4]⟩, by rw [if_neg h3]⟩

theorem pv_error_mem (fields : List (Str × Str))
    (h1 : optionalField fields fieldPortVersion ≠ [])
    (h2 : Strings.strto (optionalField fields fieldPortVersion) = none) :
    ParseError.portVersionNotInteger ∈ (multiArchRead fields).2 := by
  rw [multiArchRead_snd, pvParse_snd]
  simp [h1, h2]

theorem strto_some_nonneg {s : Str} {v : Int} (h : Strings.strto s = some v) : 0 ≤ v := by
  unfold Strings.strto at h
  by_cases hc : (decide ¬s = [] && s.all Char.isDigit) = true
  · rw [if_pos hc] at h
    cases h
    exact Int.ofNat_nonneg _
  · rw [if_neg hc] at h
    cases h

theorem strto_neg_lit {s : Str} (h : s.head? = some '-') : Strings.strto s = none := by
  cases s with
  | nil => cases h
  | cons a t =>
    have ha : a = '-' := by simpa using h
    subst ha
    unfold Strings.strto
    rw [if_neg]
    simp [List.all_cons]

theorem construct_ok_inversion {fields : List (Str × Str)} {r : BinaryParagraph}
    (h : construct fields = ConstructResult.ok r) :
    (multiArchRead fields).2 = [] ∧ (multiArchRead fields).1 = sameStr ∧
    ∃ parsedDeps dfs,
      parseQualifiedSpecifierList (optionalField fields fieldDepends) = some parsedDeps ∧
      (if optionalField fields fieldFeature = [] then
        parseDefaultFeaturesList (optionalField fields fieldDefaultFeatures)
      else some []) = some dfs ∧
      r = BinaryParagraph.canonicalize
        ⟨parsedSpec fields,
          ⟨optionalField fields fieldVersion, (pvParse fields).1⟩,
          Strings.split (optionalField fields fieldDescription) nlChar,
          Strings.split (optionalField fields fieldMaintainer) nlChar,
          optionalField fields fieldFeature, dfs,
          parsedDeps.map (fun d =>
            PackageSpec.mk d.1
              (d.2.map Triplet.from_canonical_name |>.getD (parsedSpec fields).triplet)),
          optionalField fields fieldAbi⟩ := by
  rw [construct_eq] at h
  split at h
  · exact ConstructResult.noConfusion h
  next parsedDeps hq =>
    split at h
    · exact ConstructResult.noConfusion h
    next dfs hdf =>
      split at h
      · exact ConstructResult.noConfusion h
      next he =>
        split at h
        · exact ConstructResult.noConfusion h
        next hm =>
          injection h with hr
          exact ⟨not_not.1 he, not_not.1 hm, parsedDeps, dfs, hq, hdf, hr.symm⟩

theorem construct_fatalMultiArch_inversion {fields : List (Str × Str)} {v : Str}
    (h : construct fields = ConstructResult.fatalMultiArch v) :
    (multiArchRead fields).2 = [] ∧ v = (multiArchRead fields).1 ∧ v ≠ sameStr := by
  rw [construct_eq] at h
  split at h
  · exact ConstructResult.noConfusion h
  next parsedDeps hq =>
    split at h
    · exact ConstructResult.noConfusion h
    next dfs hdf =>
      split at h
      · exact ConstructResult.noConfusion h
      next he =>
        split at h
        next hm =>
          injection h with hv
          exact ⟨not_not.1 he, hv.symm, fun hc => hm (hv ▸ hc)⟩
        · exact ConstructResult.noConfusion h

theorem construct_fatalDF_inversion {fields : List (Str × Str)}
    (h : construct fields = ConstructResult.fatalDefaultFeaturesParse) :
    optionalField fields fieldFeature = [] ∧
    parseDefaultFeaturesList (optionalField fields fieldDefaultFeatures) = none := by
  rw [construct_eq] at h
  split at h
  · exact ConstructResult.noConfusion h
  next parsedDeps hq =>
    split at h
    next hdf =>
      by_cases hfe : optionalField fields fieldFeature = []
      · rw [if_pos hfe] at hdf
        exact ⟨hfe, hdf⟩
      · rw [if_neg hfe] at hdf
        exact Option.noConfusion hdf
    next dfs hdf =>
      split at h
      · exact ConstructResult.noConfusion h
      next he =>
        split at h
        · exact ConstructResult.noConfusion h
        · exact ConstructResult.noConfusion h

theorem construct_errors_priority (fields : List (Str × Str))
    (he : (multiArchRead fields).2 ≠ []) :
    construct fields =
      ConstructResult.accumulatedErrors (parsedSpec fields) (multiArchRead fields).2 ∨
    construct fields = ConstructResult.fatalDependsParse ∨
    construct fields = ConstructResult.fatalDefaultFeaturesParse := by
  rw [construct_eq]
  split
  · exact Or.inr (Or.inl rfl)
  · split
    · exact Or.inr (Or.inr rfl)
    · rw [if_pos he]
      exact Or.inl rfl

/-- C9: `displayname` renders `name:triplet` when the feature is empty or
equals the literal `"core"`; only a non-empty feature different from
`"core"` renders `name[feature]:triplet`. -/
theorem c9_displayname_core_alias (p : BinaryParagraph) :
    ((p.feature = [] ∨ p.feature = coreStr) →
      p.displayname = p.spec.name ++ [':'] ++ p.spec.triplet) ∧
    (p.feature ≠ [] → p.feature ≠ coreStr →
      p.displayname = p.spec.name ++ ['['] ++ p.feature ++ [']', ':'] ++ p.spec.triplet) := by
  constructor
  · intro h
    unfold BinaryParagraph.displayname
    rcases h with h | h
    · rw [if_pos]
      · rfl
      · simp [BinaryParagraph.is_feature, List.isEmpty_iff, h]
    · rw [if_pos]
      · rfl
      · simp [h]
  · intro h1 h2
    unfold BinaryParagraph.displayname
    rw [if_neg]
    simp [BinaryParagraph.is_feature, List.isEmpty_iff, h1, h2]

theorem c9_witness :
    exampleFeatureRecord.displayname =
      exampleFeatureRecord.spec.name ++ [':'] ++ exampleFeatureRecord.spec.triplet :=
  (c9_displayname_core_alias exampleFeatureRecord).1 (Or.inr rfl)

/-- C3 (amended): a malformed `Depends` list is an immediate fatal
failure of the parsing-path constructor (the `value_or_exit` of src line
66), taken before the accumulated errors are reported and without adding
the dependency failure to the accumulated error list. -/
theorem c3_depends_immediate_fatal (fields : List (Str × Str))
    (h : parseQualifiedSpecifierList (optionalField fields fieldDepends) = none) :
    construct fields = ConstructResult.fatalDependsParse := by
  rw [construct_eq, h]

/-- C3 counterexample: on a field map whose `Depends` value is malformed
while the required `Package` field is missing (an accumulated error), the
constructor's outcome is the immediate dependency-parse abort, not the
accumulated-errors report the claim demands; the accumulated
missing-field error is present but never reported together with the
dependency failure. -/
theorem c3_counterexample :
    getField malformedDependsFields fieldPackage = none ∧
    ParseError.missingField fieldPackage ∈ (multiArchRead malformedDependsFields).2 ∧
    parseQualifiedSpecifierList (optionalField malformedDependsFields fieldDepends) = none ∧
    construct malformedDependsFields = ConstructResult.fatalDependsParse := by
  decide

theorem c3_witness :
    construct malformedDependsFields = ConstructResult.fatalDependsParse :=
  c3_depends_immediate_fatal malformedDependsFields (by decide)

/-- C4: a `Multi-Arch` value other than the literal `"same"` makes
construction fail (never `ok`); the dedicated fatal-multi-arch outcome is
reachable only when the accumulated error list is empty, and whenever
accumulated errors exist the outcome is their report (or one of the
earlier immediate aborts), never the multi-arch fatal. -/
theorem c4_multi_arch_after_errors (fields : List (Str × Str)) (v : Str) :
    (getField fields fieldMultiArch = some v → v ≠ sameStr →
      ∀ r, construct fields ≠ ConstructResult.ok r) ∧
    (construct fields = ConstructResult.fatalMultiArch v →
      (multiArchRead fields).2 = [] ∧ getField fields fieldMultiArch = some v ∧
        v ≠ sameStr) ∧
    ((multiArchRead fields).2 ≠ [] →
      construct fields =
        ConstructResult.accumulatedErrors (parsedSpec fields) (multiArchRead fields).2 ∨
      construct fields = ConstructResult.fatalDependsParse ∨
      construct fields = ConstructResult.fatalDefaultFeaturesParse) := by
  refine ⟨?_, ?_, construct_errors_priority fields⟩
  · intro hget hne r hok
    obtain ⟨-, hm, -⟩ := construct_ok_inversion hok
    rw [multiArchRead_fst, hget] at hm
    exact hne hm
  · intro h
    obtain ⟨he, hv, hne⟩ := construct_fatalMultiArch_inversion h
    refine ⟨he, ?_, hne⟩
    have hma : getField fields fieldMultiArch ≠ none := ((errors_nil_iff fields).1 he).2.2.1
    cases hget : getField fields fieldMultiArch with
    | none => exact absurd hget hma
    | some w =>
      rw [multiArchRead_fst, hget] at hv
      rw [hv]
      rfl

theorem c4_witness :
    (multiArchRead badMultiArchFields).2 = [] ∧
    getField badMultiArchFields fieldMultiArch = some ("x64".toList) ∧
    ("x64".toList) ≠ sameStr :=
  (c4_multi_arch_after_errors badMultiArchFields ("x64".toList)).2.1 (by decide)

/-- C2: a `Port-Version` value with a leading minus sign (in particular
`-1` and every negative integer literal) is recorded as an accumulated
positioned error and never yields a successfully constructed record, and
the port version of every record the parsing path does construct is
non-negative. -/
theorem c2_port_version_nonneg :
    (∀ fields pvs, getField fields fieldPortVersion = some pvs →
      pvs.head? = some '-' →
      (∀ r, construct fields ≠ ConstructResult.ok r) ∧
      (∀ sp es, construct fields = ConstructResult.accumulatedErrors sp es →
        ParseError.portVersionNotInteger ∈ es)) ∧
    (∀ fields r, construct fields = ConstructResult.ok r →
      0 ≤ r.version.port_version) := by
  constructor
  · intro fields pvs hget hneg
    have hopt : optionalField fields fieldPortVersion = pvs := by
      unfold optionalField
      rw [hget]
      rfl
    have hne : optionalField fields fieldPortVersion ≠ [] := by
      rw [hopt]
      intro hnil
      rw [hnil] at hneg
      exact Option.noConfusion hneg
    have hstrto : Strings.strto (optionalField fields fieldPortVersion) = none := by
      rw [hopt]
      exact strto_neg_lit hneg
    have herrs : (multiArchRead fields).2 ≠ [] := by
      intro h0
      exact ((errors_nil_iff fields).1 h0).2.2.2 ⟨hne, hstrto⟩
    have hmem := pv_error_mem fields hne hstrto
    constructor
    · intro r hok
      exact herrs (construct_ok_inversion hok).1
    · intro sp es hacc
      rcases construct_errors_priority fields herrs with hc | hc | hc
      · rw [hacc] at hc
        injection hc with hsp hes
        rw [hes]
        exact hmem
      · rw [hacc] at hc
        exact ConstructResult.noConfusion hc
      · rw [hacc] at hc
        exact ConstructResult.noConfusion hc
  · intro fields r hok
    obtain ⟨-, -, parsedDeps, dfs, -, -, hr⟩ := construct_ok_inversion hok
    rw [hr, canonicalize_version]
    exact pvParse_fst_nonneg fields

theorem c2_witness :
    construct negativePortVersionFields ≠ ConstructResult.ok exampleRecord :=
  (c2_port_version_nonneg.1 negativePortVersionFields ("-1".toList)
    (by decide) (by decide)).1 exampleRecord

/-- C6: in every construction path a record with a non-empty feature name
has no default features; the parsing path never even attempts the
default-features parse on a feature record, so a stray (even malformed)
`Default-Features` field there is ignored rather than an error; the
core-build path always has an empty feature and the feature path always
has empty default features. -/
theorem c6_feature_exclusivity :
    (∀ fields r, construct fields = ConstructResult.ok r → r.feature ≠ [] →
      r.default_features = []) ∧
    (∀ spgh dfs triplet abi deps,
      (constructFromSource spgh dfs triplet abi deps).feature = []) ∧
    (∀ sp fpgh deps, (constructFromFeature sp fpgh deps).default_features = []) ∧
    (∀ fields f, getField fields fieldFeature = some f → f ≠ [] →
      construct fields ≠ ConstructResult.fatalDefaultFeaturesParse) := by
  refine ⟨?_, ?_, ?_, ?_⟩
  · intro fields r hok hfe
    obtain ⟨-, -, parsedDeps, dfs, -, hdf, hr⟩ := construct_ok_inversion hok
    have hfeat : optionalField fields fieldFeature ≠ [] := by
      intro h0
      rw [hr, canonicalize_feature] at hfe
      exact hfe h0
    rw [if_neg hfeat] at hdf
    injection hdf with hdfs
    rw [hr, canonicalize_default_features]
    exact hdfs.symm
  · intro spgh dfs triplet abi deps
    rfl
  · intro sp fpgh deps
    rfl
  · intro fields f hget hfne hfatal
    obtain ⟨hfe, -⟩ := construct_fatalDF_inversion hfatal
    unfold optionalField at hfe
    rw [hget] at hfe
    exact hfne hfe

theorem c6_witness : exampleFeatureParsed.default_features = [] :=
  c6_feature_exclusivity.1 featureWithDefaultsFields exampleFeatureParsed
    (by decide) (by decide)

/-- C5: in every construction path the dependency list of the resulting
record is strictly sorted in PackageSpec order (name, then triplet) and
therefore free of duplicates, regardless of the order or duplication of
the input list. -/
theorem c5_dependency_set_law :
    (∀ fields r, construct fields = ConstructResult.ok r →
      List.Pairwise
        (fun a b : PackageSpec =>
          a.name < b.name ∨ (a.name = b.name ∧ a.triplet < b.triplet))
        r.dependencies ∧ r.dependencies.Nodup) ∧
    (∀ spgh dfs triplet abi deps,
      List.Pairwise
        (fun a b : PackageSpec =>
          a.name < b.name ∨ (a.name = b.name ∧ a.triplet < b.triplet))
        (constructFromSource spgh dfs triplet abi deps).dependencies ∧
      (constructFromSource spgh dfs triplet abi deps).dependencies.Nodup) ∧
    (∀ sp fpgh deps,
      List.Pairwise
        (fun a b : PackageSpec =>
          a.name < b.name ∨ (a.name = b.name ∧ a.triplet < b.triplet))
        (constructFromFeature sp fpgh deps).dependencies ∧
      (constructFromFeature sp fpgh deps).dependencies.Nodup) := by
  have key : ∀ l : List PackageSpec,
      List.Pairwise
        (fun a b : PackageSpec =>
          a.name < b.name ∨ (a.name = b.name ∧ a.triplet < b.triplet))
        (sortUniqueErase l) ∧ (sortUniqueErase l).Nodup := by
    intro l
    exact ⟨(sortUniqueErase_pairwise l).imp (fun hab => (ps_lt_iff _ _).1 hab),
      sortUniqueErase_nodup l⟩
  refine ⟨?_, ?_, ?_⟩
  · intro fields r hok
    obtain ⟨-, -, parsedDeps, dfs, -, -, hr⟩ := construct_ok_inversion hok
    rw [hr, canonicalize_dependencies]
    exact key _
  · intro spgh dfs triplet abi deps
    unfold constructFromSource
    rw [canonicalize_dependencies]
    exact key _
  · intro sp fpgh deps
    unfold constructFromFeature
    rw [canonicalize_dependencies]
    exact key _

theorem c5_witness :
    List.Pairwise
      (fun a b : PackageSpec =>
        a.name < b.name ∨ (a.name = b.name ∧ a.triplet < b.triplet))
      depsExampleParsed.dependencies ∧ depsExampleParsed.dependencies.Nodup :=
  c5_dependency_set_law.1 depsExampleFields depsExampleParsed (by decide)

theorem getField_eraseField_ne (fields : List (Str × Str)) {name m : Str} (h : m ≠ name) :
    getField (eraseField fields name) m = getField fields m := by
  induction fields with
  | nil => rfl
  | cons nv rest ih =>
    obtain ⟨n, v⟩ := nv
    unfold eraseField at ih ⊢
    rw [List.filter_cons]
    by_cases hn : n = name
    · have : (n != name) = false := by simp [hn]
      rw [this]
      simp only [Bool.false_eq_true, if_false]
      rw [ih]
      have hnm : n ≠ m := fun hc => h (hc ▸ hn)
      simp [getField, hnm]
    · have : (n != name) = true := by simp [hn]
      rw [this]
      simp only [if_true]
      simp only [getField]
      by_cases hm2 : n = m
      · simp [hm2]
      · simp [hm2, ih]

theorem getField_eraseField_self (fields : List (Str × Str)) (name : Str) :
    getField (eraseField fields name) name = none := by
  induction fields with
  | nil => rfl
  | cons nv rest ih =>
    obtain ⟨n, v⟩ := nv
    unfold eraseField at ih ⊢
    rw [List.filter_cons]
    by_cases hn : n = name
    · have : (n != name) = false := by simp [hn]
      rw [this]
      simpa using ih
    · have : (n != name) = true := by simp [hn]
      rw [this]
      simp only [if_true, getField, hn, if_false]
      exact ih

theorem canonicalize_mk_maintainers_irrel {s : PackageSpec} {v : VersionT}
    {d : List Str} {f : Str} {df : List Str} {dep : List PackageSpec} {a : Str}
    {m1 m2 : List Str}
    (h1 : ∀ l ∈ m1, trimStr l = []) (h2 : ∀ l ∈ m2, trimStr l = []) :
    BinaryParagraph.canonicalize ⟨s, v, d, m1, f, df, dep, a⟩ =
      BinaryParagraph.canonicalize ⟨s, v, d, m2, f, df, dep, a⟩ := by
  unfold BinaryParagraph.canonicalize
  have e1 : allEmpty (m1.map trimStr) = true := by
    unfold allEmpty
    rw [List.all_eq_true]
    intro x hx
    rcases List.mem_map.1 hx with ⟨l, hl, rfl⟩
    simp [h1 l hl]
  have e2 : allEmpty (m2.map trimStr) = true := by
    unfold allEmpty
    rw [List.all_eq_true]
    intro x hx
    rcases List.mem_map.1 hx with ⟨l, hl, rfl⟩
    simp [h2 l hl]
  simp only [e1, e2, if_true]

theorem construct_blank_maintainer_erase (fields : List (Str × Str)) (w : Str)
    (hget : getField fields fieldMaintainer = some w)
    (hws : ∀ x ∈ w, x.isWhitespace = true) :
    construct fields = construct (eraseField fields fieldMaintainer) := by
  have hofm : ∀ m : Str, m ≠ fieldMaintainer →
      optionalField (eraseField fields fieldMaintainer) m = optionalField fields m := by
    intro m hm
    unfold optionalField
    rw [getField_eraseField_ne fields hm]
  have hpv : pvParse (eraseField fields fieldMaintainer) = pvParse fields := by
    unfold pvParse requiredField
    rw [hofm fieldPortVersion (by decide), getField_eraseField_ne fields (by decide),
      getField_eraseField_ne fields (by decide)]
  have hspec : parsedSpec (eraseField fields fieldMaintainer) = parsedSpec fields := by
    unfold parsedSpec requiredField
    rw [getField_eraseField_ne fields (by decide), getField_eraseField_ne fields (by decide)]
  have hma : multiArchRead (eraseField fields fieldMaintainer) = multiArchRead fields := by
    unfold multiArchRead requiredField
    rw [hpv, getField_eraseField_ne fields (by decide)]
  have hm1 : ∀ l ∈ Strings.split (optionalField fields fieldMaintainer) nlChar,
      trimStr l = [] := by
    intro l hl
    have hval : optionalField fields fieldMaintainer = w := by
      unfold optionalField
      rw [hget]
      rfl
    rw [hval] at hl
    exact trim_eq_nil_of_all_ws (fun x hx => hws x (mem_of_mem_splitOnChar hl hx))
  have hm2 : ∀ l ∈ Strings.split
      (optionalField (eraseField fields fieldMaintainer) fieldMaintainer) nlChar,
      trimStr l = [] := by
    intro l hl
    have hval : optionalField (eraseField fields fieldMaintainer) fieldMaintainer = [] := by
      unfold optionalField
      rw [getField_eraseField_self]
      rfl
    rw [hval] at hl
    rcases List.mem_singleton.1 hl with rfl
    rfl
  rw [construct_eq fields, construct_eq (eraseField fields fieldMaintainer)]
  rw [hofm fieldDepends (by decide), hofm fieldFeature (by decide),
    hofm fieldDefaultFeatures (by decide), hofm fieldVersion (by decide),
    hofm fieldDescription (by decide), hofm fieldAbi (by decide),
    hpv, hspec, hma]
  cases hq : parseQualifiedSpecifierList (optionalField fields fieldDepends) with
  | none => rfl
  | some parsedDeps =>
    cases hdf : (if optionalField fields fieldFeature = [] then
        parseDefaultFeaturesList (optionalField fields fieldDefaultFeatures)
      else some []) with
    | none => rfl
    | some dfs =>
      show (if (multiArchRead fields).2 ≠ [] then _ else _) =
        (if (multiArchRead fields).2 ≠ [] then _ else _)
      by_cases he : (multiArchRead fields).2 ≠ []
      · rw [if_pos he, if_pos he]
      · rw [if_neg he, if_neg he]
        by_cases hsame : (multiArchRead fields).1 ≠ sameStr
        · rw [if_pos hsame, if_pos hsame]
        · rw [if_neg hsame, if_neg hsame]
          exact congrArg ConstructResult.ok (canonicalize_mk_maintainers_irrel hm1 hm2)

/-- C7: canonicalization trims every maintainer and description line and
clears a sequence that is blank after trimming; consequently a record
whose `Maintainer` field consists of whitespace only parses exactly like
the same field map with no `Maintainer` field at all. -/
theorem c7_blank_collapse :
    (∀ r : BinaryParagraph,
      (∀ l ∈ (BinaryParagraph.canonicalize r).maintainers, trimStr l = l) ∧
      (∀ l ∈ (BinaryParagraph.canonicalize r).description, trimStr l = l) ∧
      ((∀ l ∈ r.maintainers, trimStr l = []) →
        (BinaryParagraph.canonicalize r).maintainers = []) ∧
      ((∀ l ∈ r.description, trimStr l = []) →
        (BinaryParagraph.canonicalize r).description = [])) ∧
    (∀ fields w, getField fields fieldMaintainer = some w →
      (∀ x ∈ w, x.isWhitespace = true) →
      construct fields = construct (eraseField fields fieldMaintainer)) := by
  constructor
  · intro r
    refine ⟨?_, ?_, ?_, ?_⟩
    · intro l hl
      rw [canonicalize_maintainers] at hl
      by_cases ha : allEmpty (r.maintainers.map trimStr) = true
      · rw [if_pos ha] at hl
        exact absurd hl (List.not_mem_nil l)
      · rw [if_neg ha] at hl
        rcases List.mem_map.1 hl with ⟨l0, _, rfl⟩
        exact trim_idem l0
    · intro l hl
      rw [canonicalize_description] at hl
      by_cases ha : allEmpty (r.description.map trimStr) = true
      · rw [if_pos ha] at hl
        exact absurd hl (List.not_mem_nil l)
      · rw [if_neg ha] at hl
        rcases List.mem_map.1 hl with ⟨l0, _, rfl⟩
        exact trim_idem l0
    · intro h
      rw [canonicalize_maintainers, if_pos]
      unfold allEmpty
      rw [List.all_eq_true]
      intro x hx
      rcases List.mem_map.1 hx with ⟨l, hl, rfl⟩
      simp [h l hl]
    · intro h
      rw [canonicalize_description, if_pos]
      unfold allEmpty
      rw [List.all_eq_true]
      intro x hx
      rcases List.mem_map.1 hx with ⟨l, hl, rfl⟩
      simp [h l hl]
  · exact construct_blank_maintainer_erase

theorem c7_witness :
    construct blankMaintainerFields =
      construct (eraseField blankMaintainerFields fieldMaintainer) :=
  c7_blank_collapse.2 blankMaintainerFields ("   \n   ".toList) (by decide) (by decide)

theorem serialize_string_eq (n f out : Str) :
    serialize_string n f out = out ++ (if f = [] then [] else renderField (n, f)) := by
  unfold serialize_string renderField
  split <;> simp [List.append_assoc]

theorem serialize_array_eq (n : Str) (arr : List Str) (out j : Str) :
    serialize_array n arr out j =
      out ++ (if arr = [] then [] else renderField (n, List.intercalate j arr)) := by
  unfold serialize_array renderField
  split <;> simp [List.append_assoc]

theorem serialize_paragraph_eq (n : Str) (arr : List Str) (out : Str) :
    serialize_paragraph n arr out =
      out ++ (if arr = [] then [] else renderField (n, List.intercalate parJoiner arr)) := by
  unfold serialize_paragraph
  rw [serialize_array_eq]

theorem ite_push (c : Prop) [Decidable c] (out s : Str) :
    (if c then out ++ s else out) = out ++ (if c then s else []) := by
  split <;> simp

theorem feature_chunk_collapse (p : BinaryParagraph) (x : Str) :
    (if p.is_feature = true then (if p.feature = [] then [] else x) else []) =
      if p.feature = [] then [] else x := by
  by_cases h : p.feature = [] <;>
    simp [BinaryParagraph.is_feature, List.isEmpty_iff, h]

theorem deps_chunk_collapse (p : BinaryParagraph) (x : Str) :
    (if p.dependencies ≠ [] then
      (if serialize_deps_list p.dependencies p.spec.triplet = [] then [] else x) else []) =
      if p.dependencies = [] ∨ serialize_deps_list p.dependencies p.spec.triplet = []
      then [] else x := by
  by_cases h1 : p.dependencies = [] <;>
    by_cases h2 : serialize_deps_list p.dependencies p.spec.triplet = [] <;>
    simp [h1, h2]

theorem flatten_chunk (c : Prop) [Decidable c] (nv : Str × Str) :
    (((if c then ([] : List (Str × Str)) else [nv]).map renderField)).flatten =
      if c then [] else renderField nv := by
  split <;> simp

theorem serializeBodyFrom_eq (p : BinaryParagraph) (out : Str) :
    serializeBodyFrom p out = out ++ ((serializedFields p).map renderField).flatten := by
  unfold serializeBodyFrom serializedFields
  simp only [serialize_string_eq, serialize_paragraph_eq, serialize_array_eq,
    List.append_assoc, ite_push, List.map_append, List.flatten_append, flatten_chunk,
    feature_chunk_collapse, deps_chunk_collapse]
  by_cases h1 : p.version.port_version = 0 <;>
    by_cases h2 : p.dependencies = [] <;>
      by_cases h3 : serialize_deps_list p.dependencies p.spec.triplet = [] <;>
        simp [h1, h2, h3, renderField, List.append_assoc]

theorem serializeBody_eq (p : BinaryParagraph) :
    serializeBody p = ((serializedFields p).map renderField).flatten := by
  unfold serializeBody
  rw [serializeBodyFrom_eq]
  rfl

theorem serializeBodyFrom_append (p : BinaryParagraph) (out : Str) :
    serializeBodyFrom p out = out ++ serializeBody p := by
  rw [serializeBodyFrom_eq, serializeBody_eq]

theorem serialize_via_nil (pgh : BinaryParagraph) (out : Str) :
    serialize pgh out = (serialize pgh []).map (fun s => out ++ s) := by
  simp only [serialize, serializeBodyFrom_append, List.drop_left, List.nil_append,
    List.length_nil, List.drop_zero]
  cases hp : parse_single_paragraph (serializeBody pgh) with
  | none => rfl
  | some fields =>
    dsimp only
    cases hc : construct fields with
    | ok bp =>
      dsimp only
      by_cases hbp : bp = pgh
      · rw [if_pos hbp, if_pos hbp]
        rfl
      · rw [if_neg hbp, if_neg hbp]
        rfl
    | accumulatedErrors sp es => rfl
    | fatalDependsParse => rfl
    | fatalDefaultFeaturesParse => rfl
    | fatalMultiArch v => rfl

theorem serialize_nil_some {pgh : BinaryParagraph} {s : Str}
    (h : serialize pgh [] = some s) : s = serializeBody pgh := by
  simp only [serialize, serializeBodyFrom_append, List.nil_append, List.length_nil,
    List.drop_zero] at h
  split at h
  · exact Option.noConfusion h
  · split at h
    · split at h
      · injection h with hs
        exact hs.symm
      · exact Option.noConfusion h
    · exact Option.noConfusion h

theorem serialize_some_roundtrip {pgh : BinaryParagraph} {out res : Str}
    (h : serialize pgh out = some res) :
    ∃ fields, parse_single_paragraph (res.drop out.length) = some fields ∧
      construct fields = ConstructResult.ok pgh ∧ res = out ++ serializeBody pgh := by
  rw [serialize_via_nil] at h
  cases hs : serialize pgh [] with
  | none => rw [hs] at h; exact Option.noConfusion h
  | some s =>
    rw [hs] at h
    injection h with hres
    have hsb : s = serializeBody pgh := serialize_nil_some hs
    subst hsb
    have hres' : res = out ++ serializeBody pgh := hres.symm
    subst hres'
    have hdrop : (out ++ serializeBody pgh).drop out.length = serializeBody pgh :=
      List.drop_left out (serializeBody pgh)
    rw [hdrop]
    simp only [serialize, serializeBodyFrom_append, List.nil_append, List.length_nil,
      List.drop_zero] at hs
    split at hs
    · exact Option.noConfusion hs
    next fields hp =>
      split at hs
      next bp hc =>
        split at hs
        next hbp =>
          exact ⟨fields, hp, by rw [hc, hbp], rfl⟩
        · exact Option.noConfusion hs
      next hcx =>
        exact Option.noConfusion hs

theorem c8_depends_line (p : BinaryParagraph) :
    (∀ deps target, serialize_deps_list deps target =
      List.intercalate ((", ".toList))
        (deps.map (fun d =>
          if d.triplet = target then d.name else d.name ++ [':'] ++ d.triplet))) ∧
    serializeBody p =
      partBeforeDepends p ++
        (if p.dependencies = [] ∨ serialize_deps_list p.dependencies p.spec.triplet = []
         then []
         else fieldDepends ++ ((": ".toList)) ++
           serialize_deps_list p.dependencies p.spec.triplet ++ ['\n']) ++
      partAfterDepends p := by
  constructor
  · intro deps target
    rfl
  · rw [serializeBody_eq]
    unfold partBeforeDepends partAfterDepends serializedFields
    simp only [serialize_string_eq, serialize_paragraph_eq, serialize_array_eq,
      List.map_append, List.flatten_append, flatten_chunk, List.nil_append,
      feature_chunk_collapse, renderField, List.append_assoc]
    by_cases h1 : p.version.port_version = 0 <;>
      by_cases h2 : p.dependencies = [] <;>
        by_cases h3 : serialize_deps_list p.dependencies p.spec.triplet = [] <;>
          simp [h1, h2, h3, sepColonSpace, nlChar, List.append_assoc]

theorem c8_counterexample :
    emptyDepNameRecord.dependencies ≠ [] ∧
    containsSub fieldDepends (serializeBody emptyDepNameRecord) = false := by
  decide

/-- C10: `serialize` only appends — a successful call returns the prior
content followed by the record's text, and both the outcome and the
appended text are independent of the pre-existing content because the
sanity re-parse reads only the appended suffix. -/
theorem c10_serialize_appends_only :
    (∀ pgh out res, serialize pgh out = some res →
      res = out ++ serializeBody pgh ∧
      (∃ fields, parse_single_paragraph (res.drop out.length) = some fields ∧
        construct fields = ConstructResult.ok pgh)) ∧
    (∀ pgh out, serialize pgh out = (serialize pgh []).map (fun s => out ++ s)) := by
  constructor
  · intro pgh out res h
    obtain ⟨fields, hp, hc, hres⟩ := serialize_some_roundtrip h
    exact ⟨hres, fields, hp, hc⟩
  · intro pgh out
    exact serialize_via_nil pgh out

theorem c10_witness :
    ("xy".toList) ++ serializeBody exampleRecord =
      ("xy".toList) ++ serializeBody exampleRecord :=
  (c10_serialize_appends_only.1 exampleRecord ("xy".toList)
    (("xy".toList) ++ serializeBody exampleRecord)
    (by set_option maxRecDepth 10000 in decide)).1

theorem intercalate_cons₂ (j x y : Str) (ys : List Str) :
    List.intercalate j (x :: y :: ys) = x ++ j ++ List.intercalate j (y :: ys) := by
  simp [List.intercalate, List.intersperse, List.append_assoc]

theorem flatten_map_concat (c : Char) :
    ∀ (x : Str) (xs : List Str),
      ((x :: xs).map (fun l => l ++ [c])).flatten = List.intercalate [c] (x :: xs) ++ [c]
  | x, [] => by simp [List.intercalate, List.intersperse]
  | x, y :: ys => by
    have ih := flatten_map_concat c y ys
    simp only [List.map_cons, List.flatten_cons] at ih ⊢
    rw [intercalate_cons₂]
    rw [ih]
    simp [List.append_assoc]

theorem renderField_lines (nv : Str × Str) :
    renderField nv = ((fieldLines nv).map (fun l => l ++ [nlChar])).flatten := by
  unfold renderField fieldLines
  cases hsp : splitOnChar nlChar nv.2 with
  | nil => exact absurd hsp (splitOnChar_ne_nil nlChar nv.2)
  | cons v0 vs =>
    have hv : nv.2 = List.intercalate [nlChar] (v0 :: vs) := by
      rw [← hsp, intercalate_splitOnChar]
    rw [hv]
    rw [flatten_map_concat]
    cases vs with
    | nil => simp [List.intercalate, List.intersperse, List.append_assoc]
    | cons v1 vs' =>
      rw [intercalate_cons₂, intercalate_cons₂]
      simp [List.append_assoc]

theorem splitOnChar_append_left {c : Char} {a : Str} (h : c ∉ a) {s : Str} {y : Str}
    {ys : List Str} (hs : splitOnChar c s = y :: ys) :
    splitOnChar c (a ++ s) = (a ++ y) :: ys := by
  induction a with
  | nil => simpa using hs
  | cons x xs ih =>
    have hx : x ≠ c := fun he => h (he ▸ List.mem_cons_self x xs)
    have hxs : c ∉ xs := fun hm => h (List.mem_cons_of_mem x hm)
    rw [List.cons_append, splitOnChar, ih hxs]
    simp [hx]

theorem splitOnChar_intercalate_sep (c : Char) (sp : Str) (hsp : c ∉ sp) :
    ∀ (m0 : Str) (ms : List Str), c ∉ m0 → (∀ m ∈ ms, c ∉ m) →
      splitOnChar c (List.intercalate (c :: sp) (m0 :: ms)) =
        m0 :: ms.map (fun m => sp ++ m)
  | m0, [], h0, _ => by
    simp [List.intercalate, List.intersperse, splitOnChar_of_not_mem h0]
  | m0, m1 :: ms', h0, hms => by
    have h1 : c ∉ m1 := hms m1 (List.mem_cons_self m1 ms')
    have hms' : ∀ m ∈ ms', c ∉ m := fun m hm => hms m (List.mem_cons_of_mem m1 hm)
    have ih := splitOnChar_intercalate_sep c sp hsp m1 ms' h1 hms'
    rw [intercalate_cons₂]
    have hre : m0 ++ (c :: sp) ++ List.intercalate (c :: sp) (m1 :: ms') =
        m0 ++ c :: (sp ++ List.intercalate (c :: sp) (m1 :: ms')) := by
      simp [List.append_assoc]
    rw [hre, splitOnChar_append_cons _ h0]
    have hsub : splitOnChar c (sp ++ List.intercalate (c :: sp) (m1 :: ms')) =
        (sp ++ m1) :: ms'.map (fun m => sp ++ m) :=
      splitOnChar_append_left hsp ih
    rw [hsub]
    simp

theorem takeWhile_append_stop {p : Char → Bool} :
    ∀ (a : Str), (∀ x ∈ a, p x = true) → ∀ (b : Str) (c0 : Char), p c0 = false →
      (a ++ c0 :: b).takeWhile p = a ∧ (a ++ c0 :: b).dropWhile p = c0 :: b := by
  intro a
  induction a with
  | nil =>
    intro _ b c0 hc
    simp [List.takeWhile_cons, List.dropWhile_cons, hc]
  | cons x xs ih =>
    intro ha b c0 hc
    have hx : p x = true := ha x (List.mem_cons_self x xs)
    have hxs : ∀ y ∈ xs, p y = true := fun y hy => ha y (List.mem_cons_of_mem x hy)
    obtain ⟨h1, h2⟩ := ih hxs b c0 hc
    constructor
    · rw [List.cons_append, List.takeWhile_cons, hx, h1]
      simp
    · rw [List.cons_append, List.dropWhile_cons, hx, h2]
      simp

theorem splitFieldLine_render {n : Str} (hne : n ≠ []) (hcol : colonChar ∉ n) (v0 : Str) :
    splitFieldLine (n ++ sepColonSpace ++ v0) = some (n, v0) := by
  unfold splitFieldLine
  have hsep : n ++ sepColonSpace ++ v0 = n ++ colonChar :: (spaceChar :: v0) := by
    simp [sepColonSpace, colonChar, spaceChar, List.append_assoc]
  have hall : ∀ x ∈ n, (x != colonChar) = true := by
    intro x hx
    have : x ≠ colonChar := fun he => hcol (he ▸ hx)
    simpa using this
  have hstop : ((colonChar : Char) != colonChar) = false := by simp
  obtain ⟨h1, h2⟩ := takeWhile_append_stop n hall (spaceChar :: v0) colonChar hstop
  rw [hsep, h1, h2]
  rw [if_neg (by simpa using hne)]
  simp

theorem parseFieldsAux_cont {name : Str} :
    ∀ (vs : List Str), (∀ l ∈ vs, l ≠ [] ∧ isContinuationLine l = true) →
      ∀ (v : Str) (rest : List Str),
        parseFieldsAux name v (vs ++ rest) =
          parseFieldsAux name (v ++ (vs.map (fun l => nlChar :: l)).flatten) rest
  | [], _ => by intro v rest; simp [List.nil_append]
  | l :: vs', h => by
    intro v rest
    have hl := h l (List.mem_cons_self l vs')
    have hvs' : ∀ x ∈ vs', x ≠ [] ∧ isContinuationLine x = true :=
      fun x hx => h x (List.mem_cons_of_mem l hx)
    rw [List.cons_append, parseFieldsAux]
    rw [if_neg (by simpa using hl.1), if_pos hl.2]
    rw [parseFieldsAux_cont vs' hvs' (v ++ nlChar :: l) rest]
    simp [List.append_assoc]

theorem parseFieldsAux_fields {name v : Str} :
    ∀ (fs : List (Str × Str)), (∀ nv ∈ fs, GoodField nv) →
      parseFieldsAux name v ((fs.map fieldLines).flatten) = some ((name, v) :: fs)
  | [], _ => by simp [parseFieldsAux]
  | nv :: fs', h => by
    have hnv := h nv (List.mem_cons_self nv fs')
    have hfs' : ∀ x ∈ fs', GoodField x := fun x hx => h x (List.mem_cons_of_mem nv hx)
    obtain ⟨⟨hn1, hn2, hn3, hn4⟩, hgv⟩ := hnv
    simp only [List.map_cons, List.flatten_cons]
    cases hsp : splitOnChar nlChar nv.2 with
    | nil => exact absurd hsp (splitOnChar_ne_nil nlChar nv.2)
    | cons v0 vs =>
      have hfl : fieldLines nv = (nv.1 ++ sepColonSpace ++ v0) :: vs := by
        unfold fieldLines
        rw [hsp]
      rw [hfl]
      rw [List.cons_append, parseFieldsAux]
      have hline_ne : nv.1 ++ sepColonSpace ++ v0 ≠ [] := by
        intro hc
        rcases List.append_eq_nil.1 hc with ⟨hc1, -⟩
        rcases List.append_eq_nil.1 hc1 with ⟨hc2, -⟩
        exact hn1 hc2
      have hline_cont : isContinuationLine (nv.1 ++ sepColonSpace ++ v0) = false := by
        cases hcn : nv.1 with
        | nil => exact absurd hcn hn1
        | cons a t =>
          rw [hcn] at hn4
          unfold isContinuationLine at hn4 ⊢
          simpa using hn4
      rw [if_neg (by simpa using hline_ne), hline_cont]
      simp only [Bool.false_eq_true, if_false]
      rw [splitFieldLine_render hn1 hn2 v0]
      dsimp only
      have hvs_cont : ∀ l ∈ vs, l ≠ [] ∧ isContinuationLine l = true := by
        intro l hl
        exact hgv l (by rw [hsp]; exact hl)
      rw [parseFieldsAux_cont vs hvs_cont v0 ((fs'.map fieldLines).flatten)]
      have hv2 : v0 ++ (vs.map (fun l => nlChar :: l)).flatten = nv.2 := by
        rw [← intercalate_cons_eq, ← hsp, intercalate_splitOnChar]
      rw [hv2]
      rw [parseFieldsAux_fields fs' hfs']
      rfl

theorem fieldLines_no_nl {nv : Str × Str} (h : GoodField nv) :
    ∀ l ∈ fieldLines nv, nlChar ∉ l := by
  obtain ⟨⟨hn1, hn2, hn3, hn4⟩, hgv⟩ := h
  intro l hl
  unfold fieldLines at hl
  cases hsp : splitOnChar nlChar nv.2 with
  | nil => exact absurd hsp (splitOnChar_ne_nil nlChar nv.2)
  | cons v0 vs =>
    rw [hsp] at hl
    rcases List.mem_cons.1 hl with rfl | hl'
    · intro hmem
      rcases List.mem_append.1 hmem with hm1 | hm2
      · rcases List.mem_append.1 hm1 with hm3 | hm4
        · exact hn3 hm3
        · simp [sepColonSpace] at hm4
          rcases hm4 with hm4 | hm4 <;> simp [nlChar] at hm4
      · exact not_mem_of_mem_splitOnChar (by rw [hsp]; exact List.mem_cons_self v0 vs) hm2
    · exact not_mem_of_mem_splitOnChar (by rw [hsp]; exact List.mem_cons_of_mem v0 hl')

theorem body_flatten_lines :
    ∀ (fs : List (Str × Str)), (∀ nv ∈ fs, GoodField nv) →
      (fs.map renderField).flatten =
        (((fs.map fieldLines).flatten).map (fun l => l ++ [nlChar])).flatten
  | [], _ => rfl
  | nv :: fs', hg => by
    have hg' : ∀ x ∈ fs', GoodField x := fun x hx => hg x (List.mem_cons_of_mem nv hx)
    simp only [List.map_cons, List.flatten_cons, List.map_append, List.flatten_append]
    rw [body_flatten_lines fs' hg', renderField_lines nv]

theorem parse_single_paragraph_good (fs : List (Str × Str)) (hne : fs ≠ [])
    (hg : ∀ nv ∈ fs, GoodField nv) :
    parse_single_paragraph ((fs.map renderField).flatten) = some fs := by
  have hlines_no_nl : ∀ l ∈ (fs.map fieldLines).flatten, nlChar ∉ l := by
    intro l hl
    rcases List.mem_flatten.1 hl with ⟨ls, hls, hlm⟩
    rcases List.mem_map.1 hls with ⟨nv, hnv, rfl⟩
    exact fieldLines_no_nl (hg nv hnv) l hlm
  simp only [parse_single_paragraph]
  rw [body_flatten_lines fs hg, splitOnChar_flatten_lines hlines_no_nl,
    List.getLast?_concat, List.dropLast_concat]
  simp only [eq_self_iff_true, if_true]
  cases fs with
  | nil => exact absurd rfl hne
  | cons nv fs' =>
    obtain ⟨⟨hn1, hn2, hn3, hn4⟩, hgv⟩ := hg nv (List.mem_cons_self nv fs')
    simp only [List.map_cons, List.flatten_cons]
    cases hsp : splitOnChar nlChar nv.2 with
    | nil => exact absurd hsp (splitOnChar_ne_nil nlChar nv.2)
    | cons v0 vs =>
      have hfl : fieldLines nv = (nv.1 ++ sepColonSpace ++ v0) :: vs := by
        unfold fieldLines
        rw [hsp]
      rw [hfl]
      rw [List.cons_append]
      dsimp only
      have hline_cont : isContinuationLine (nv.1 ++ sepColonSpace ++ v0) = false := by
        cases hcn : nv.1 with
        | nil => exact absurd hcn hn1
        | cons a t =>
          rw [hcn] at hn4
          unfold isContinuationLine at hn4 ⊢
          simpa using hn4
      rw [hline_cont]
      simp only [Bool.false_eq_true, if_false]
      rw [splitFieldLine_render hn1 hn2 v0]
      dsimp only
      have hvs_cont : ∀ l ∈ vs, l ≠ [] ∧ isContinuationLine l = true := by
        intro l hl
        exact hgv l (by rw [hsp]; exact hl)
      rw [parseFieldsAux_cont vs hvs_cont v0 ((fs'.map fieldLines).flatten)]
      have hv2 : v0 ++ (vs.map (fun l => nlChar :: l)).flatten = nv.2 := by
        rw [← intercalate_cons_eq, ← hsp, intercalate_splitOnChar]
      rw [hv2]
      rw [parseFieldsAux_fields fs' (fun x hx => hg x (List.mem_cons_of_mem nv hx))]

theorem validIdent_elim {s : Str} (h : validIdent s = true) :
    s ≠ [] ∧ ∀ c ∈ s, identChar c = true := by
  unfold validIdent at h
  rw [Bool.and_eq_true] at h
  constructor
  · have := h.1
    simp only [Bool.not_eq_true'] at this
    exact fun hc => by simp [hc] at this
  · exact List.all_eq_true.1 h.2

theorem validIdent_no_nl {s : Str} (h : validIdent s = true) : nlChar ∉ s :=
  fun hm => identChar_ne_nl ((validIdent_elim h).2 _ hm) rfl

theorem validIdent_no_colon {s : Str} (h : validIdent s = true) : colonChar ∉ s :=
  fun hm => identChar_ne_colon ((validIdent_elim h).2 _ hm) rfl

theorem validIdent_no_comma {s : Str} (h : validIdent s = true) : commaChar ∉ s :=
  fun hm => identChar_ne_comma ((validIdent_elim h).2 _ hm) rfl

theorem validIdent_no_ws {s : Str} (h : validIdent s = true) :
    ∀ c ∈ s, c.isWhitespace = false :=
  fun c hm => identChar_not_ws ((validIdent_elim h).2 c hm)

theorem lineOk_elim {l : Str} (h : lineOk l = true) :
    l ≠ [] ∧ trimStr l = l ∧ nlChar ∉ l := by
  unfold lineOk at h
  rw [Bool.and_eq_true, Bool.and_eq_true] at h
  refine ⟨?_, ?_, ?_⟩
  · have := h.1.1
    simp only [Bool.not_eq_true'] at this
    exact fun hc => by simp [hc] at this
  · exact of_decide_eq_true h.1.2
  · intro hm
    have := List.all_eq_true.1 h.2 nlChar hm
    simp at this

theorem mem_intercalate {x : Char} {j : Str} :
    ∀ (ls : List Str), x ∈ List.intercalate j ls → x ∈ j ∨ ∃ l ∈ ls, x ∈ l
  | [], h => by simp [List.intercalate, List.intersperse] at h
  | [l], h => by
    simp only [List.intercalate, List.intersperse, List.flatten_cons,
      List.flatten_nil, List.append_nil] at h
    exact Or.inr ⟨l, List.mem_singleton.2 rfl, h⟩
  | l1 :: l2 :: rest, h => by
    rw [intercalate_cons₂] at h
    rcases List.mem_append.1 h with h1 | h2
    · rcases List.mem_append.1 h1 with h3 | h4
      · exact Or.inr ⟨l1, List.mem_cons_self l1 (l2 :: rest), h3⟩
      · exact Or.inl h4
    · rcases mem_intercalate (l2 :: rest) h2 with h5 | ⟨l, hl, hx⟩
      · exact Or.inl h5
      · exact Or.inr ⟨l, List.mem_cons_of_mem l1 hl, hx⟩

theorem serialize_deps_list_no_nl {deps : List PackageSpec} {target : Str}
    (hd : ∀ d ∈ deps, validIdent d.name = true ∧ validIdent d.triplet = true) :
    nlChar ∉ serialize_deps_list deps target := by
  intro hm
  unfold serialize_deps_list at hm
  rcases mem_intercalate _ hm with h1 | ⟨l, hl, hx⟩
  · simp [commaSpace, nlChar] at h1
  · rcases List.mem_map.1 hl with ⟨d, hdm, rfl⟩
    obtain ⟨hn, ht⟩ := hd d hdm
    by_cases hc : d.triplet = target
    · rw [if_pos hc] at hx
      exact validIdent_no_nl hn hx
    · rw [if_neg hc] at hx
      unfold PackageSpec.render at hx
      rcases List.mem_append.1 hx with h2 | h3
      · rcases List.mem_append.1 h2 with h4 | h5
        · exact validIdent_no_nl hn h4
        · simp [colonChar, nlChar] at h5
      · exact validIdent_no_nl ht h3

theorem intercalate_commaSpace_no_nl {ls : List Str}
    (h : ∀ l ∈ ls, nlChar ∉ l) : nlChar ∉ List.intercalate commaSpace ls := by
  intro hm
  rcases mem_intercalate _ hm with h1 | ⟨l, hl, hx⟩
  · simp [commaSpace, nlChar] at h1
  · exact h l hl hx

theorem goodValue_scalar {w : Str} (h : nlChar ∉ w) :
    ∀ l ∈ (splitOnChar nlChar w).tail, l ≠ [] ∧ isContinuationLine l = true := by
  rw [splitOnChar_of_not_mem h]
  simp

theorem isContinuationLine_spaces4 (m : Str) :
    isContinuationLine (spaces4 ++ m) = true := by
  show isContinuationLine (' ' :: (' ' :: ' ' :: ' ' :: m)) = true
  rfl

theorem goodValue_paragraph {ms : List Str} (hms : ∀ m ∈ ms, lineOk m = true)
    (hne : ms ≠ []) :
    ∀ l ∈ (splitOnChar nlChar (List.intercalate parJoiner ms)).tail,
      l ≠ [] ∧ isContinuationLine l = true := by
  cases ms with
  | nil => exact absurd rfl hne
  | cons m0 ms' =>
    have hj : parJoiner = nlChar :: spaces4 := rfl
    have hnosp : nlChar ∉ spaces4 := by decide
    have h0 : nlChar ∉ m0 := (lineOk_elim (hms m0 (List.mem_cons_self m0 ms'))).2.2
    have hrest : ∀ m ∈ ms', nlChar ∉ m :=
      fun m hm => (lineOk_elim (hms m (List.mem_cons_of_mem m0 hm))).2.2
    rw [hj, splitOnChar_intercalate_sep nlChar spaces4 hnosp m0 ms' h0 hrest]
    intro l hl
    simp only [List.tail_cons] at hl
    rcases List.mem_map.1 hl with ⟨m, hm, rfl⟩
    exact ⟨by simp [spaces4], isContinuationLine_spaces4 m⟩

theorem mem_chunk_elim {c : Prop} [Decidable c] {nv x : Str × Str}
    (h : x ∈ (if c then ([] : List (Str × Str)) else [nv])) : ¬c ∧ x = nv := by
  split at h
  · exact absurd h (List.not_mem_nil x)
  · exact ⟨by assumption, List.mem_singleton.1 h⟩

theorem validRecord_unpack {p : BinaryParagraph} (hv : validRecord p = true) :
    validIdent p.spec.name = true ∧ validIdent p.spec.triplet = true ∧
    0 ≤ p.version.port_version ∧ nlChar ∉ p.version.text ∧
    (p.feature = [] ∨ validIdent p.feature = true) ∧ nlChar ∉ p.abi ∧
    (∀ m ∈ p.maintainers, lineOk m = true) ∧
    (∀ m ∈ p.description, lineOk m = true) ∧
    (∀ d ∈ p.dependencies, validIdent d.name = true ∧ validIdent d.triplet = true) ∧
    List.Pairwise (· < ·) p.dependencies ∧
    (p.feature = [] ∨ p.default_features = []) ∧
    (∀ f ∈ p.default_features, validIdent f = true) := by
  unfold validRecord at hv
  simp only [Bool.and_eq_true] at hv
  obtain ⟨⟨⟨⟨⟨⟨⟨⟨⟨⟨⟨h1, h2⟩, h3⟩, h4⟩, h5⟩, h6⟩, h7⟩, h8⟩, h9⟩, h10⟩, h11⟩, h12⟩ := hv
  refine ⟨h1, h2, ?_, ?_, ?_, ?_, ?_, ?_, ?_, ?_, ?_, ?_⟩
  · exact of_decide_eq_true h3
  · intro hm
    have := List.all_eq_true.1 h4 nlChar hm
    simp at this
  · have h5' := h5
    rw [Bool.or_eq_true] at h5'
    rcases h5' with h | h
    · exact Or.inl (by simpa [List.isEmpty_iff] using h)
    · exact Or.inr h
  · intro hm
    have := List.all_eq_true.1 h6 nlChar hm
    simp at this
  · exact List.all_eq_true.1 h7
  · exact List.all_eq_true.1 h8
  · intro d hd
    have := List.all_eq_true.1 h9 d hd
    rwa [Bool.and_eq_true] at this
  · exact (strictSortedB_iff p.dependencies).1 h10
  · have h11' := h11
    rw [Bool.or_eq_true] at h11'
    rcases h11' with h | h
    · exact Or.inl (by simpa [List.isEmpty_iff] using h)
    · exact Or.inr (by simpa [List.isEmpty_iff] using h)
  · exact List.all_eq_true.1 h12

theorem intToStr_no_nl {i : Int} (h : 0 ≤ i) : nlChar ∉ intToStr i :=
  fun hm => isDigit_ne_nl (intToStr_all_digit h _ hm) rfl

theorem serializedFields_ne_nil (p : BinaryParagraph) : serializedFields p ≠ [] := by
  intro h
  have hma := sf_multi_arch p
  rw [h] at hma
  exact Option.noConfusion hma

theorem serializedFields_good {p : BinaryParagraph} (hv : validRecord p = true) :
    ∀ nv ∈ serializedFields p, GoodField nv := by
  obtain ⟨v1, v2, v3, v4, v5, v6, v7, v8, v9, v10, v11, v12⟩ := validRecord_unpack hv
  intro nv h
  unfold serializedFields at h
  simp only [List.mem_append] at h
  rcases h with ((((((((((h | h) | h) | h) | h) | h) | h) | h) | h) | h) | h)
  · obtain ⟨hc, rfl⟩ := mem_chunk_elim h
    exact ⟨(by decide : goodName fieldPackage), goodValue_scalar (validIdent_no_nl v1)⟩
  · obtain ⟨hc, rfl⟩ := mem_chunk_elim h
    exact ⟨(by decide : goodName fieldVersion), goodValue_scalar v4⟩
  · obtain ⟨hc, rfl⟩ := mem_chunk_elim h
    exact ⟨(by decide : goodName fieldPortVersion), goodValue_scalar (intToStr_no_nl v3)⟩
  · obtain ⟨hc, rfl⟩ := mem_chunk_elim h
    rcases v5 with h5 | h5
    · exact absurd h5 hc
    · exact ⟨(by decide : goodName fieldFeature), goodValue_scalar (validIdent_no_nl h5)⟩
  · obtain ⟨hc, rfl⟩ := mem_chunk_elim h
    exact ⟨(by decide : goodName fieldDepends), goodValue_scalar (serialize_deps_list_no_nl v9)⟩
  · obtain ⟨hc, rfl⟩ := mem_chunk_elim h
    exact ⟨(by decide : goodName fieldArchitecture), goodValue_scalar (validIdent_no_nl v2)⟩
  · obtain ⟨hc, rfl⟩ := mem_chunk_elim h
    exact ⟨(by decide : goodName fieldMultiArch), goodValue_scalar (by decide : nlChar ∉ sameStr)⟩
  · obtain ⟨hc, rfl⟩ := mem_chunk_elim h
    exact ⟨(by decide : goodName fieldMaintainer), goodValue_paragraph v7 hc⟩
  · obtain ⟨hc, rfl⟩ := mem_chunk_elim h
    exact ⟨(by decide : goodName fieldAbi), goodValue_scalar v6⟩
  · obtain ⟨hc, rfl⟩ := mem_chunk_elim h
    exact ⟨(by decide : goodName fieldDescription), goodValue_paragraph v8 hc⟩
  · obtain ⟨hc, rfl⟩ := mem_chunk_elim h
    exact ⟨(by decide : goodName fieldDefaultFeatures),
      goodValue_scalar (intercalate_commaSpace_no_nl (fun l hl => validIdent_no_nl (v12 l hl)))⟩

theorem parse_serializeBody {p : BinaryParagraph} (hv : validRecord p = true) :
    parse_single_paragraph (serializeBody p) = some (serializedFields p) := by
  rw [serializeBody_eq]
  exact parse_single_paragraph_good _ (serializedFields_ne_nil p) (serializedFields_good hv)

theorem of_sf_version (p : BinaryParagraph) :
    optionalField (serializedFields p) fieldVersion = p.version.text := by
  unfold optionalField
  rw [sf_version]
  by_cases h : p.version.text = [] <;> simp [h]

theorem of_sf_feature (p : BinaryParagraph) :
    optionalField (serializedFields p) fieldFeature = p.feature := by
  unfold optionalField
  rw [sf_feature]
  by_cases h : p.feature = [] <;> simp [h]

theorem of_sf_abi (p : BinaryParagraph) :
    optionalField (serializedFields p) fieldAbi = p.abi := by
  unfold optionalField
  rw [sf_abi]
  by_cases h : p.abi = [] <;> simp [h]

theorem of_sf_port_version (p : BinaryParagraph) :
    optionalField (serializedFields p) fieldPortVersion =
      if p.version.port_version = 0 then [] else intToStr p.version.port_version := by
  unfold optionalField
  rw [sf_port_version]
  by_cases h : p.version.port_version = 0 <;> simp [h]

theorem of_sf_depends (p : BinaryParagraph) :
    optionalField (serializedFields p) fieldDepends =
      if p.dependencies = [] ∨ serialize_deps_list p.dependencies p.spec.triplet = []
      then [] else serialize_deps_list p.dependencies p.spec.triplet := by
  unfold optionalField
  rw [sf_depends]
  by_cases h : p.dependencies = [] ∨ serialize_deps_list p.dependencies p.spec.triplet = [] <;>
    simp [h]

theorem of_sf_maintainer (p : BinaryParagraph) :
    optionalField (serializedFields p) fieldMaintainer =
      if p.maintainers = [] then [] else List.intercalate parJoiner p.maintainers := by
  unfold optionalField
  rw [sf_maintainer]
  by_cases h : p.maintainers = [] <;> simp [h]

theorem of_sf_description (p : BinaryParagraph) :
    optionalField (serializedFields p) fieldDescription =
      if p.description = [] then [] else List.intercalate parJoiner p.description := by
  unfold optionalField
  rw [sf_description]
  by_cases h : p.description = [] <;> simp [h]

theorem of_sf_default_features (p : BinaryParagraph) :
    optionalField (serializedFields p) fieldDefaultFeatures =
      if p.default_features = [] then []
      else List.intercalate commaSpace p.default_features := by
  unfold optionalField
  rw [sf_default_features]
  by_cases h : p.default_features = [] <;> simp [h]

theorem parsedSpec_sf {p : BinaryParagraph} (hname : p.spec.name ≠ [])
    (htrip : p.spec.triplet ≠ []) : parsedSpec (serializedFields p) = p.spec := by
  unfold parsedSpec Triplet.from_canonical_name
  rw [requiredField_fst, requiredField_fst, sf_package, sf_architecture]
  simp only [hname, htrip, if_false, Option.getD_some]

theorem sf_errors_nil {p : BinaryParagraph} (hv : validRecord p = true) :
    (multiArchRead (serializedFields p)).2 = [] := by
  obtain ⟨v1, v2, v3, v4, v5, v6, v7, v8, v9, v10, v11, v12⟩ := validRecord_unpack hv
  apply (errors_nil_iff (serializedFields p)).2
  refine ⟨?_, ?_, ?_, ?_⟩
  · rw [sf_package]
    simp [(validIdent_elim v1).1]
  · rw [sf_architecture]
    simp [(validIdent_elim v2).1]
  · rw [sf_multi_arch]
    simp
  · rw [of_sf_port_version]
    by_cases h : p.version.port_version = 0
    · simp [h]
    · rw [if_neg h]
      rintro ⟨-, hstrto⟩
      rw [strto_intToStr v3] at hstrto
      exact Option.noConfusion hstrto

theorem sf_multi_arch_same (p : BinaryParagraph) :
    (multiArchRead (serializedFields p)).1 = sameStr := by
  rw [multiArchRead_fst, sf_multi_arch]
  rfl

theorem sf_pv_value {p : BinaryParagraph} (h3 : 0 ≤ p.version.port_version) :
    (pvParse (serializedFields p)).1 = p.version.port_version := by
  unfold pvParse
  rw [of_sf_port_version]
  by_cases h : p.version.port_version = 0
  · simp [h]
  · simp only [h, if_false]
    rw [if_neg (intToStr_ne_nil _), strto_intToStr h3]

theorem parseQS_item {d : PackageSpec} {target : Str}
    (hn : validIdent d.name = true) (ht : validIdent d.triplet = true) :
    parseQualifiedSpecifier (if d.triplet = target then d.name else d.render) =
      some (d.name, if d.triplet = target then none else some d.triplet) := by
  by_cases hc : d.triplet = target
  · rw [if_pos hc, if_pos hc]
    unfold parseQualifiedSpecifier
    rw [splitOnChar_of_not_mem (validIdent_no_colon hn)]
    simp [hn]
  · rw [if_neg hc, if_neg hc]
    unfold parseQualifiedSpecifier PackageSpec.render
    have hre : d.name ++ [colonChar] ++ d.triplet = d.name ++ colonChar :: d.triplet := by
      simp
    rw [hre, splitOnChar_append_cons _ (validIdent_no_colon hn),
      splitOnChar_of_not_mem (validIdent_no_colon ht)]
    simp [hn, ht]

theorem item_no_ws {d : PackageSpec} {target : Str}
    (hn : validIdent d.name = true) (ht : validIdent d.triplet = true) :
    ∀ c ∈ (if d.triplet = target then d.name else d.render), c.isWhitespace = false := by
  intro c hc
  by_cases h : d.triplet = target
  · rw [if_pos h] at hc
    exact validIdent_no_ws hn c hc
  · rw [if_neg h] at hc
    unfold PackageSpec.render at hc
    rcases List.mem_append.1 hc with h1 | h2
    · rcases List.mem_append.1 h1 with h3 | h4
      · exact validIdent_no_ws hn c h3
      · rcases List.mem_singleton.1 h4 with rfl
        decide
    · exact validIdent_no_ws ht c h2

theorem item_no_comma {d : PackageSpec} {target : Str}
    (hn : validIdent d.name = true) (ht : validIdent d.triplet = true) :
    commaChar ∉ (if d.triplet = target then d.name else d.render) := by
  intro hc
  by_cases h : d.triplet = target
  · rw [if_pos h] at hc
    exact validIdent_no_comma hn hc
  · rw [if_neg h] at hc
    unfold PackageSpec.render at hc
    rcases List.mem_append.1 hc with h1 | h2
    · rcases List.mem_append.1 h1 with h3 | h4
      · exact validIdent_no_comma hn h3
      · have h5 := List.mem_singleton.1 h4
        simp [colonChar, commaChar] at h5
    · exact validIdent_no_comma ht h2

theorem item_ne_nil {d : PackageSpec} {target : Str}
    (hn : validIdent d.name = true) :
    (if d.triplet = target then d.name else d.render) ≠ [] := by
  by_cases h : d.triplet = target
  · rw [if_pos h]
    exact (validIdent_elim hn).1
  · rw [if_neg h]
    unfold PackageSpec.render
    intro hc
    rcases List.append_eq_nil.1 hc with ⟨hc1, -⟩
    rcases List.append_eq_nil.1 hc1 with ⟨hc2, -⟩
    exact (validIdent_elim hn).1 hc2

theorem trim_ne_nil_head {c : Char} {s' : Str} (hc : c.isWhitespace = false) :
    trimStr (c :: s') ≠ [] := by
  intro h
  unfold trimStr at h
  have hd : (c :: s').dropWhile Char.isWhitespace = c :: s' := by
    rw [List.dropWhile_cons]
    simp [hc]
  rw [hd] at h
  have : (c :: s').reverse.dropWhile Char.isWhitespace = [] := by
    have := congrArg List.reverse h
    simpa using this
  have hall := List.dropWhile_eq_nil_iff.1 this c (by simp)
  rw [hc] at hall
  exact Bool.noConfusion hall

theorem mapM_spaced_items {target : Str} :
    ∀ (rest : List PackageSpec),
      (∀ d ∈ rest, validIdent d.name = true ∧ validIdent d.triplet = true) →
      (rest.map (fun d =>
          [spaceChar] ++ (if d.triplet = target then d.name else d.render))).mapM
        (fun item => parseQualifiedSpecifier (trimStr item)) =
      some (rest.map (fun d =>
        (d.name, if d.triplet = target then none else some d.triplet)))
  | [], _ => rfl
  | d :: rest', h => by
    obtain ⟨hn, ht⟩ := h d (List.mem_cons_self d rest')
    have hrest : ∀ x ∈ rest', validIdent x.name = true ∧ validIdent x.triplet = true :=
      fun x hx => h x (List.mem_cons_of_mem d hx)
    simp only [List.map_cons, List.mapM_cons]
    have htr : trimStr ([spaceChar] ++ (if d.triplet = target then d.name else d.render)) =
        (if d.triplet = target then d.name else d.render) := by
      show trimStr (spaceChar :: (if d.triplet = target then d.name else d.render)) = _
      rw [trim_cons_ws (by decide), trim_of_no_ws (item_no_ws hn ht)]
    rw [htr, parseQS_item hn ht, mapM_spaced_items rest' hrest]
    rfl

theorem parseQSL_rendered_list (target : Str) :
    ∀ (deps : List PackageSpec),
      (∀ d ∈ deps, validIdent d.name = true ∧ validIdent d.triplet = true) →
      parseQualifiedSpecifierList
          (if deps = [] ∨ serialize_deps_list deps target = [] then []
           else serialize_deps_list deps target) =
        some (deps.map (fun d =>
          (d.name, if d.triplet = target then none else some d.triplet)))
  | [], _ => by
    simp only [true_or, if_pos]
    rfl
  | d0 :: rest, hd => by
    obtain ⟨hn0, ht0⟩ := hd d0 (List.mem_cons_self d0 rest)
    have hrest : ∀ x ∈ rest, validIdent x.name = true ∧ validIdent x.triplet = true :=
      fun x hx => hd x (List.mem_cons_of_mem d0 hx)
    have hitem0_ne := @item_ne_nil d0 target hn0
    have hsdl : serialize_deps_list (d0 :: rest) target =
        List.intercalate (commaChar :: [spaceChar])
          ((if d0.triplet = target then d0.name else d0.render) ::
            rest.map (fun d => if d.triplet = target then d.name else d.render)) := rfl
    have hsplit0 : ∃ R, serialize_deps_list (d0 :: rest) target =
        (if d0.triplet = target then d0.name else d0.render) ++ R := by
      rw [hsdl]
      cases rest.map (fun d => if d.triplet = target then d.name else d.render) with
      | nil =>
        exact ⟨[], by simp [List.intercalate, List.intersperse]⟩
      | cons i1 irest =>
        exact ⟨commaChar :: [spaceChar] ++ List.intercalate (commaChar :: [spaceChar])
          (i1 :: irest), by rw [intercalate_cons₂]; simp [List.append_assoc]⟩
    have hne_r : serialize_deps_list (d0 :: rest) target ≠ [] := by
      obtain ⟨R, hR⟩ := hsplit0
      rw [hR]
      intro hc
      exact hitem0_ne (List.append_eq_nil.1 hc).1
    rw [if_neg (by
      rintro (hc | hc)
      · exact List.cons_ne_nil d0 rest hc
      · exact hne_r hc)]
    unfold parseQualifiedSpecifierList
    have htrim_ne : trimStr (serialize_deps_list (d0 :: rest) target) ≠ [] := by
      obtain ⟨R, hR⟩ := hsplit0
      cases hi0 : (if d0.triplet = target then d0.name else d0.render) with
      | nil => exact absurd hi0 hitem0_ne
      | cons c t0 =>
        rw [hR, hi0, List.cons_append]
        exact trim_ne_nil_head
          (item_no_ws hn0 ht0 c (by rw [hi0]; exact List.mem_cons_self c t0))
    rw [if_neg htrim_ne]
    rw [hsdl, splitOnChar_intercalate_sep commaChar [spaceChar] (by decide) _ _
      (item_no_comma hn0 ht0)
      (by
        intro m hm
        rcases List.mem_map.1 hm with ⟨d, hdm, rfl⟩
        obtain ⟨hn, ht⟩ := hrest d hdm
        exact item_no_comma hn ht)]
    simp only [List.mapM_cons]
    rw [trim_of_no_ws (item_no_ws hn0 ht0), parseQS_item hn0 ht0]
    rw [List.map_map]
    have hcomp : ((fun m => [spaceChar] ++ m) ∘
        (fun d : PackageSpec => if d.triplet = target then d.name else d.render)) =
        (fun d : PackageSpec =>
          [spaceChar] ++ (if d.triplet = target then d.name else d.render)) := rfl
    rw [hcomp, mapM_spaced_items rest hrest]
    rfl

theorem parseDFL_rendered :
    ∀ (dfs : List Str), (∀ f ∈ dfs, validIdent f = true) →
      parseDefaultFeaturesList
          (if dfs = [] then [] else List.intercalate commaSpace dfs) =
        some dfs
  | [], _ => by
    simp only [if_pos]
    rfl
  | f0 :: rest, hf => by
    have hf0 := hf f0 (List.mem_cons_self f0 rest)
    have hrest : ∀ x ∈ rest, validIdent x = true :=
      fun x hx => hf x (List.mem_cons_of_mem f0 hx)
    rw [if_neg (List.cons_ne_nil f0 rest)]
    unfold parseDefaultFeaturesList
    have hj : commaSpace = commaChar :: [spaceChar] := rfl
    have htrim_ne : trimStr (List.intercalate commaSpace (f0 :: rest)) ≠ [] := by
      have hsplit0 : ∃ R, List.intercalate commaSpace (f0 :: rest) = f0 ++ R := by
        cases rest with
        | nil => exact ⟨[], by simp [List.intercalate, List.intersperse]⟩
        | cons f1 rest' =>
          exact ⟨commaSpace ++ List.intercalate commaSpace (f1 :: rest'),
            by rw [intercalate_cons₂]; simp [List.append_assoc]⟩
      obtain ⟨R, hR⟩ := hsplit0
      rw [hR]
      cases hf0c : f0 with
      | nil => exact absurd hf0c (validIdent_elim hf0).1
      | cons c t0 =>
        rw [List.cons_append]
        exact trim_ne_nil_head
          (validIdent_no_ws hf0 c (by rw [hf0c]; exact List.mem_cons_self c t0))
    rw [if_neg htrim_ne]
    rw [hj, splitOnChar_intercalate_sep commaChar [spaceChar] (by decide) f0 rest
      (validIdent_no_comma hf0) (fun m hm => validIdent_no_comma (hrest m hm))]
    simp only [List.mapM_cons]
    rw [trim_of_no_ws (validIdent_no_ws hf0)]
    simp only [hf0, if_pos]
    have haux : ∀ (xs : List Str), (∀ x ∈ xs, validIdent x = true) →
        (xs.map (fun m => [spaceChar] ++ m)).mapM
          (fun item =>
            if validIdent (trimStr item) = true then some (trimStr item) else none) =
        some xs := by
      intro xs
      induction xs with
      | nil => intro _; rfl
      | cons x xs' ih =>
        intro hxs
        have hx := hxs x (List.mem_cons_self x xs')
        have hxs' : ∀ y ∈ xs', validIdent y = true :=
          fun y hy => hxs y (List.mem_cons_of_mem x hy)
        simp only [List.map_cons, List.mapM_cons]
        have htr : trimStr ([spaceChar] ++ x) = x := by
          show trimStr (spaceChar :: x) = x
          rw [trim_cons_ws (by decide), trim_of_no_ws (validIdent_no_ws hx)]
        rw [htr]
        simp only [hx, if_pos]
        rw [ih hxs']
        rfl
    rw [haux rest hrest]
    rfl

theorem split_trim_collapse (xs : List Str) (hxs : ∀ m ∈ xs, lineOk m = true) :
    (if allEmpty (((splitOnChar nlChar
        (if xs = [] then [] else List.intercalate parJoiner xs)).map trimStr))
     then []
     else (splitOnChar nlChar
        (if xs = [] then [] else List.intercalate parJoiner xs)).map trimStr) = xs := by
  cases xs with
  | nil =>
    simp only [if_pos]
    rfl
  | cons m0 rest =>
    rw [if_neg (List.cons_ne_nil m0 rest)]
    have h0 := lineOk_elim (hxs m0 (List.mem_cons_self m0 rest))
    have hrestOk : ∀ m ∈ rest, lineOk m = true :=
      fun m hm => hxs m (List.mem_cons_of_mem m0 hm)
    have hj : parJoiner = nlChar :: spaces4 := rfl
    rw [hj, splitOnChar_intercalate_sep nlChar spaces4 (by decide) m0 rest h0.2.2
      (fun m hm => (lineOk_elim (hrestOk m hm)).2.2)]
    have hmap : (m0 :: rest.map (fun m => spaces4 ++ m)).map trimStr = m0 :: rest := by
      simp only [List.map_cons, List.map_map]
      rw [h0.2.1]
      congr 1
      have : (trimStr ∘ fun m => spaces4 ++ m) = fun m : Str => trimStr (spaces4 ++ m) := rfl
      rw [this]
      have hid : ∀ m ∈ rest, trimStr (spaces4 ++ m) = m := by
        intro m hm
        exact trim_spaces4 m (lineOk_elim (hrestOk m hm)).2.1
      calc rest.map (fun m => trimStr (spaces4 ++ m)) = rest.map id := by
            apply List.map_congr_left
            intro m hm
            rw [hid m hm]
            rfl
        _ = rest := List.map_id rest
    rw [hmap]
    rw [if_neg]
    intro hall
    unfold allEmpty at hall
    have := List.all_eq_true.1 hall m0 (List.mem_cons_self m0 rest)
    rw [List.isEmpty_iff] at this
    exact h0.1 this

theorem map_resolve_toPair (target : Str) (deps : List PackageSpec) :
    (deps.map (fun d =>
        (d.name, if d.triplet = target then none else some d.triplet))).map
      (fun pr : Str × Option Str =>
        PackageSpec.mk pr.1 ((pr.2.map Triplet.from_canonical_name).getD target)) =
      deps := by
  induction deps with
  | nil => rfl
  | cons d rest ih =>
    simp only [List.map_cons]
    rw [ih]
    congr 1
    by_cases hc : d.triplet = target
    · simp only [hc, if_pos]
      show PackageSpec.mk d.name target = d
      rw [← hc]
    · simp only [hc, if_neg, not_false_iff]
      show PackageSpec.mk d.name (Triplet.from_canonical_name d.triplet) = d
      rfl

theorem construct_serializedFields {p : BinaryParagraph} (hv : validRecord p = true) :
    construct (serializedFields p) = ConstructResult.ok p := by
  obtain ⟨v1, v2, v3, v4, v5, v6, v7, v8, v9, v10, v11, v12⟩ := validRecord_unpack hv
  have hname := (validIdent_elim v1).1
  have htrip := (validIdent_elim v2).1
  have hspec := parsedSpec_sf hname htrip
  rw [construct_eq]
  have hdep : parseQualifiedSpecifierList (optionalField (serializedFields p) fieldDepends) =
      some (p.dependencies.map (fun d =>
        (d.name, if d.triplet = p.spec.triplet then none else some d.triplet))) := by
    rw [of_sf_depends]
    exact parseQSL_rendered_list p.spec.triplet p.dependencies v9
  rw [hdep]
  dsimp only
  have hdf : (if optionalField (serializedFields p) fieldFeature = [] then
      parseDefaultFeaturesList (optionalField (serializedFields p) fieldDefaultFeatures)
    else some []) = some p.default_features := by
    rw [of_sf_feature, of_sf_default_features]
    by_cases hfe : p.feature = []
    · rw [if_pos hfe]
      exact parseDFL_rendered p.default_features v12
    · rw [if_neg hfe]
      rcases v11 with h | h
      · exact absurd h hfe
      · rw [h]
  rw [hdf]
  dsimp only
  rw [if_neg (not_not_intro (sf_errors_nil hv))]
  rw [if_neg (not_not_intro (sf_multi_arch_same p))]
  apply congrArg
  unfold BinaryParagraph.canonicalize
  dsimp only
  simp only [hspec, of_sf_version, of_sf_abi, of_sf_feature, sf_pv_value v3,
    of_sf_maintainer, of_sf_description, Strings.split]
  rw [split_trim_collapse p.maintainers v7, split_trim_collapse p.description v8]
  rw [map_resolve_toPair p.spec.triplet p.dependencies, sortUniqueErase_eq_self v10]

/-- C1: for every valid record, re-parsing the text `serialize` produces
(via the single-record tokenizer and the parsing-path constructor)
succeeds and returns a record structurally equal to the original, so the
checked `serialize` succeeds and appends exactly the record's text; and
whenever `serialize` returns at all, the re-parse of the appended suffix
had produced exactly the original record — a diverging record is never
silently returned. -/
theorem c1_round_trip :
    (∀ (p : BinaryParagraph) (out : Str), validRecord p = true →
      parse_single_paragraph (serializeBody p) = some (serializedFields p) ∧
      construct (serializedFields p) = ConstructResult.ok p ∧
      serialize p out = some (out ++ serializeBody p)) ∧
    (∀ (p : BinaryParagraph) (out res : Str), serialize p out = some res →
      ∃ fields, parse_single_paragraph (res.drop out.length) = some fields ∧
        construct fields = ConstructResult.ok p) := by
  constructor
  · intro p out hv
    refine ⟨parse_serializeBody hv, construct_serializedFields hv, ?_⟩
    simp only [serialize, serializeBodyFrom_append, List.drop_left]
    rw [parse_serializeBody hv]
    dsimp only
    rw [construct_serializedFields hv]
    dsimp only
    rw [if_pos rfl]
  · intro p out res h
    obtain ⟨fields, hp, hc, -⟩ := serialize_some_roundtrip h
    exact ⟨fields, hp, hc⟩

theorem c1_witness :
    parse_single_paragraph (serializeBody exampleRecord) =
      some (serializedFields exampleRecord) ∧
    construct (serializedFields exampleRecord) = ConstructResult.ok exampleRecord ∧
    serialize exampleRecord [] = some ([] ++ serializeBody exampleRecord) :=
  c1_round_trip.1 exampleRecord [] (by decide)
